import Mathlib

/-!
Shallow embedding of the vaultconfig storage core (crypt envelope,
obscure module, INI format handler, config manager orchestration).

Python `str` values are modelled as lists of Unicode codepoints
(`Str := List Nat`), and `bytes` values as lists of byte values
(`List Nat`, each `< 256` where it matters).  All text handled by the
envelope and the INI format is ASCII, where this identification is exact.
External cryptographic primitives (NaCl secretbox, AES-CTR, SHA-256,
UTF-8 codecs) are modelled as bundled structures carrying their
contracts; the repository's own logic (header parsing, base64 framing,
error classification, the obscure/reveal pipeline, configparser-style
serialization, manager state transitions) is embedded concretely.
-/

namespace VaultConfig

/-- Python `str` modelled as a list of Unicode codepoints. -/
abbrev Str := List Nat

/-- Convert a Lean string literal to its codepoint list (used for the
ASCII constants appearing in the source). -/
def sb (s : String) : Str := s.toList.map Char.toNat

/-- The ASCII whitespace bytes stripped by Python's `str.strip()`
(space, tab, newline, carriage return, vertical tab, form feed). -/
def isSpaceB (c : Nat) : Bool :=
  c = 32 || c = 9 || c = 10 || c = 13 || c = 11 || c = 12

/-- `str.lstrip()` on ASCII text. -/
def stripL (l : Str) : Str := l.dropWhile isSpaceB

/-- `str.rstrip()` on ASCII text. -/
def stripR (l : Str) : Str := (l.reverse.dropWhile isSpaceB).reverse

/-- `str.strip()` on ASCII text. -/
def strip (l : Str) : Str := stripR (stripL l)

/-- `text.split("\n")`: split on the newline codepoint 10, keeping
empty pieces, exactly as Python's `str.split` does. -/
def splitNl : Str → List Str
  | [] => [[]]
  | c :: rest =>
    if c = 10 then [] :: splitNl rest
    else
      match splitNl rest with
      | [] => [[c]]
      | l :: ls => (c :: l) :: ls

/-- `[line.strip() for line in text.split("\n") if line.strip()]`,
the non-blank-line scan shared by `crypt.decrypt` and
`crypt.is_encrypted`. -/
def nonBlankLines (data : Str) : List Str :=
  ((splitNl data).map strip).filter (fun l => l ≠ [])

/-- A string all of whose codepoints are ASCII whitespace. -/
def allWhite (l : Str) : Bool := l.all isSpaceB

/-! ### Base64 (Python `base64.b64encode/b64decode` and the URL-safe variant)

The encoder maps 3-byte groups to 4 alphabet characters with `=`
padding; the decoder mirrors CPython's `binascii.a2b_base64` with
`strict_mode=False` (what `base64.b64decode(validate=False)` calls):
characters outside the alphabet are skipped, a pad character at quad
position 0 or 1 is ignored, and as soon as pad characters complete a
quad the accumulated bytes are returned, discarding everything after;
a leftover quad position at the end of the input is an error.  On a
`str` argument, `b64decode` first runs `.encode("ascii")`, so any
non-ASCII codepoint fails the whole decode. -/

/-- Standard-alphabet character for a 6-bit value. -/
def b64charStd (v : Nat) : Nat :=
  if v < 26 then 65 + v
  else if v < 52 then 97 + (v - 26)
  else if v < 62 then 48 + (v - 52)
  else if v = 62 then 43 else 47

/-- Standard-alphabet value of a character; `none` off the alphabet. -/
def b64valStd (c : Nat) : Option Nat :=
  if 65 ≤ c ∧ c ≤ 90 then some (c - 65)
  else if 97 ≤ c ∧ c ≤ 122 then some (c - 97 + 26)
  else if 48 ≤ c ∧ c ≤ 57 then some (c - 48 + 52)
  else if c = 43 then some 62
  else if c = 47 then some 63
  else none

/-- URL-safe-alphabet character for a 6-bit value (`-` and `_` replace
`+` and `/`). -/
def b64charUrl (v : Nat) : Nat :=
  if v < 26 then 65 + v
  else if v < 52 then 97 + (v - 26)
  else if v < 62 then 48 + (v - 52)
  else if v = 62 then 45 else 95

/-- URL-safe-alphabet value of a character.  `urlsafe_b64decode`
translates `-`/`_` to `+`/`/` and then decodes with the standard
table, so `+` and `/` themselves also stay valid. -/
def b64valUrl (c : Nat) : Option Nat :=
  if 65 ≤ c ∧ c ≤ 90 then some (c - 65)
  else if 97 ≤ c ∧ c ≤ 122 then some (c - 97 + 26)
  else if 48 ≤ c ∧ c ≤ 57 then some (c - 48 + 52)
  else if c = 45 ∨ c = 43 then some 62
  else if c = 95 ∨ c = 47 then some 63
  else none

/-- Base64 encoding with padding, generic in the alphabet. -/
def b64encGroups (ch : Nat → Nat) : List Nat → Str
  | b1 :: b2 :: b3 :: rest =>
    ch (b1 / 4) :: ch ((b1 % 4) * 16 + b2 / 16) ::
      ch ((b2 % 16) * 4 + b3 / 64) :: ch (b3 % 64) :: b64encGroups ch rest
  | [b1, b2] => [ch (b1 / 4), ch ((b1 % 4) * 16 + b2 / 16), ch ((b2 % 16) * 4), 61]
  | [b1] => [ch (b1 / 4), ch ((b1 % 4) * 16), 61, 61]
  | [] => []

/-- Base64 encoding with the padding already stripped, as produced by
`obscure`'s `.rstrip("=")`. -/
def b64encNoPad (ch : Nat → Nat) : List Nat → Str
  | b1 :: b2 :: b3 :: rest =>
    ch (b1 / 4) :: ch ((b1 % 4) * 16 + b2 / 16) ::
      ch ((b2 % 16) * 4 + b3 / 64) :: ch (b3 % 64) :: b64encNoPad ch rest
  | [b1, b2] => [ch (b1 / 4), ch ((b1 % 4) * 16 + b2 / 16), ch ((b2 % 16) * 4)]
  | [b1] => [ch (b1 / 4), ch ((b1 % 4) * 16)]
  | [] => []

/-- The state machine of CPython's `binascii.a2b_base64` with
`strict_mode=False`: `quadPos` is the position inside the current
4-character quad, `leftchar` the leftover bits of the last alphabet
character, `pads` the pad characters seen since the last alphabet
character, and `acc` the decoded bytes in reverse.  A character
outside the alphabet that is not `=` is skipped without touching the
state; `=` at quad position 0 or 1 is skipped; `=` at quad position 2
or 3 counts as padding, and once `quadPos + pads` reaches 4 the
accumulated bytes are returned with the rest of the input ignored.  A
quad left incomplete at the end of the input is an error. -/
def b64decGo (val : Nat → Option Nat) :
    Str → Nat → Nat → Nat → List Nat → Option (List Nat)
  | [], quadPos, _, _, acc => if quadPos = 0 then some acc.reverse else none
  | c :: rest, quadPos, leftchar, pads, acc =>
    if c = 61 then
      if 2 ≤ quadPos then
        if 4 ≤ quadPos + (pads + 1) then some acc.reverse
        else b64decGo val rest quadPos leftchar (pads + 1) acc
      else b64decGo val rest quadPos leftchar pads acc
    else
      match val c with
      | some v =>
        if quadPos = 0 then b64decGo val rest 1 v 0 acc
        else if quadPos = 1 then
          b64decGo val rest 2 (v % 16) 0 ((leftchar * 4 + v / 16) :: acc)
        else if quadPos = 2 then
          b64decGo val rest 3 (v % 4) 0 ((leftchar * 16 + v / 4) :: acc)
        else b64decGo val rest 0 0 0 ((leftchar * 64 + v) :: acc)
      | none => b64decGo val rest quadPos leftchar pads acc

/-- `base64.b64decode` with `validate=False` on a `str` argument:
`_bytes_from_decode_data` runs `.encode("ascii")`, which fails on any
non-ASCII codepoint; the bytes then go through the lenient
`a2b_base64` machine from the empty state. -/
def b64decode (val : Nat → Option Nat) (s : Str) : Option (List Nat) :=
  if s.all (fun c => c < 128) then b64decGo val s 0 0 0 [] else none

/-- Re-add padding to a multiple-of-4 length, as `reveal` does before
decoding. -/
def repad (s : Str) : Str :=
  s ++ List.replicate ((4 - s.length % 4) % 4) 61

/-! ### Crypt envelope (`crypt.py`)

The NaCl secretbox and the SHA-256 password hash are external
libraries; they are modelled by `CryptoModel`, a bundle of a key
derivation, a seal and an open operation together with the contracts
the envelope code relies on (authenticated round trip, rejection under
any other key, and — idealising the hash — distinct keys for distinct
passwords).  Everything else in `encrypt`/`decrypt`/`is_encrypted` is
embedded from the source line by line. -/

/-- `ENCRYPTION_HEADER` (`"VAULTCONFIG_ENCRYPT_V0:"`; `rstrip()` of it
is itself, since it carries no trailing whitespace). -/
def encHeader : Str := sb "VAULTCONFIG_ENCRYPT_V0:"

/-- The literal `"VAULTCONFIG_ENCRYPT_"` tested by
`lines[0].startswith(...)` in `decrypt`. -/
def encPrefixTag : Str := sb "VAULTCONFIG_ENCRYPT_"

/-- Abstract model of the external cryptographic primitives used by
`crypt.py`: `derive` stands for `derive_key`'s salted SHA-256 (idealised
as collision-free), `sealMsg` for `nacl.secret.SecretBox.encrypt`
(returning nonce ‖ ciphertext ‖ MAC), and `openSealed` for
`SecretBox.decrypt` (MAC-checked, `none` on `CryptoError`). -/
structure CryptoModel where
  derive : Str → List Nat
  sealMsg : List Nat → List Nat → List Nat → List Nat
  openSealed : List Nat → List Nat → Option (List Nat)
  open_seal : ∀ k n m, openSealed k (sealMsg k n m) = some m
  open_wrong : ∀ k k2 n m, k2 ≠ k → openSealed k2 (sealMsg k n m) = none
  derive_inj : ∀ p q, p ≠ q → derive p ≠ derive q

/-- `derive_key`: rejects the empty password before hashing. -/
def deriveKey (C : CryptoModel) (p : Str) : Except String (List Nat) :=
  if p = [] then .error "Password cannot be empty" else .ok (C.derive p)

/-- `encrypt`: derive the key, seal the payload under a fresh nonce
(passed explicitly here in place of `nacl.utils.random(24)`), base64
the sealed bytes and frame them under the version header.  Any failure
(in the source, any exception — in particular the empty-password
`ValueError`) is wrapped into `EncryptionError`. -/
def encrypt (C : CryptoModel) (data : List Nat) (password : Str)
    (nonce : List Nat) : Except String Str :=
  match deriveKey C password with
  | .error e => .error ("Failed to encrypt config: " ++ e)
  | .ok key =>
    .ok (encHeader ++ 10 :: (b64encGroups b64charStd (C.sealMsg key nonce data) ++ [10]))

/-- The classifiable failures of `decrypt`.  In the source these are
`DecryptionError` with pairwise distinct messages, except
`invalidPassword`, which is the separate `InvalidPasswordError` type,
and `otherError`, the catch-all `"Failed to decrypt config: ..."`
wrapper for exceptions not raised by `decrypt` itself. -/
inductive DecErr
  | emptyData
  | notEncrypted
  | unsupportedVersion (v : Str)
  | noPayload
  | invalidBase64
  | invalidPassword
  | otherError
deriving DecidableEq

deriving instance DecidableEq for Except

/-- `lines[0].split(":")[0] if ":" in lines[0] else "unknown"`, the
version fragment quoted by the unsupported-version message. -/
def versionOf (l : Str) : Str :=
  if 58 ∈ l then l.takeWhile (fun c => c ≠ 58) else sb "unknown"

/-- `decrypt`: split into stripped non-blank lines, check the header
and its exact version, base64-decode the payload line, then open the
sealed bytes; MAC failure is `invalidPassword`.  The key is derived
after the base64 step, as in the source, so an empty password surfaces
as the generic wrapper (`otherError`), not as `invalidPassword`. -/
def decrypt (C : CryptoModel) (data : Str) (password : Str) :
    Except DecErr (List Nat) :=
  match nonBlankLines data with
  | [] => .error .emptyData
  | l0 :: rest =>
    if encPrefixTag.isPrefixOf l0 = false then .error .notEncrypted
    else if l0 ≠ encHeader then .error (.unsupportedVersion (versionOf l0))
    else
      match rest with
      | [] => .error .noPayload
      | l1 :: _ =>
        match b64decode b64valStd l1 with
        | none => .error .invalidBase64
        | some enc =>
          match deriveKey C password with
          | .error _ => .error .otherError
          | .ok key =>
            match C.openSealed key enc with
            | none => .error .invalidPassword
            | some m => .ok m

/-- `is_encrypted`: true iff the first stripped non-blank line equals
the current version header exactly. -/
def isEncryptedB (data : Str) : Bool :=
  match nonBlankLines data with
  | [] => false
  | l0 :: _ => l0 == encHeader

/-- Concrete executable instance of the crypto primitives, used to
evaluate the envelope theorems on explicit inputs: the "key" is the
password itself and sealing records the three lengths followed by
key ‖ nonce ‖ message, so opening can check the key and recover the
message. -/
def toyOpenSealed (k s : List Nat) : Option (List Nat) :=
  match s with
  | kl :: nl :: ml :: rest =>
    if rest.length = kl + nl + ml ∧ rest.take kl = k then
      some ((rest.drop (kl + nl)).take ml)
    else none
  | _ => none

def toyCrypto : CryptoModel where
  derive := fun p => p
  sealMsg := fun k n m => k.length :: n.length :: m.length :: (k ++ n ++ m)
  openSealed := toyOpenSealed
  open_seal := by
    intro k n m
    have hlen : (k ++ n ++ m).length = k.length + n.length + m.length := by
      simp [List.length_append]
      omega
    have htake : (k ++ n ++ m).take k.length = k := by
      rw [List.append_assoc, List.take_left]
    have hdrop : (k ++ n ++ m).drop (k.length + n.length) = m := by
      rw [show k.length + n.length = (k ++ n).length by simp, List.drop_left]
    simp only [toyOpenSealed, hlen, htake, and_self, if_true, hdrop,
      List.take_length, if_pos]
  open_wrong := by
    intro k k2 n m h
    have htake : (k ++ n ++ m).take k.length = k := by
      rw [List.append_assoc, List.take_left]
    simp only [toyOpenSealed, htake]
    rw [if_neg]
    intro hc
    exact h (hc.2.symm)
  derive_inj := fun _ _ h => h

/-! ### Obscure module (`obscure.py`)

AES-CTR under the fixed compiled-in key and the UTF-8 codec are
external; `ObscureEnv` bundles them with their contracts (CTR is a
length-preserving involution for a fixed key/IV; UTF-8 decode inverts
encode).  `obscure`/`reveal`/`is_obscured` themselves are embedded from
the source; the fresh random IV of each `obscure` call is passed
explicitly. -/

/-- External primitives used by `obscure.py`: `utf8Enc`/`utf8Dec` are
`str.encode("utf-8")` / `bytes.decode("utf-8")` (decode failing with
`none`), and `crypt` is `_crypt`, AES-CTR under the fixed module key
for a given 16-byte IV. -/
structure ObscureEnv where
  utf8Enc : Str → List Nat
  utf8Dec : List Nat → Option Str
  crypt : List Nat → List Nat → List Nat
  dec_enc : ∀ s, utf8Dec (utf8Enc s) = some s
  crypt_invol : ∀ iv d, crypt iv (crypt iv d) = d
  crypt_len : ∀ iv d, (crypt iv d).length = d.length

/-- `obscure`: empty input maps to empty output; otherwise prepend the
random IV to the AES-CTR ciphertext and base64url-encode without
padding (`.rstrip("=")`). -/
def obscure (E : ObscureEnv) (password : Str) (iv : List Nat) : Str :=
  if password = [] then []
  else b64encNoPad b64charUrl (iv ++ E.crypt iv (E.utf8Enc password))

/-- `reveal`: empty input maps to empty output; otherwise re-pad,
base64url-decode, require at least the 16-byte IV, split it off,
decrypt and UTF-8-decode.  Every failure is the `ValueError`
"Failed to reveal password", modelled as `none`. -/
def reveal (E : ObscureEnv) (ob : Str) : Option Str :=
  if ob = [] then some []
  else
    match b64decode b64valUrl (repad ob) with
    | none => none
    | some ct =>
      if ct.length < 16 then none
      else E.utf8Dec (E.crypt (ct.take 16) (ct.drop 16))

/-- Python `str.isprintable()`, modelled on its ASCII fragment (where
it is exact): printable codepoints are 32–126; the empty string is
printable. -/
def isPrintableStr (s : Str) : Bool := s.all (fun c => 32 ≤ c && c ≤ 126)

/-- `is_obscured`: the documented heuristic — empty strings are not
obscured; otherwise attempt `reveal` and classify as obscured iff it
succeeds and the revealed string is printable. -/
def isObscured (E : ObscureEnv) (v : Str) : Bool :=
  if v = [] then false
  else
    match reveal E v with
    | some r => isPrintableStr r
    | none => false

/-- Concrete executable instance of the obscure-module primitives
(identity codec and identity stream cipher satisfy the contracts), used
to evaluate the obscure theorems on explicit inputs. -/
def toyObscureEnv : ObscureEnv where
  utf8Enc := fun s => s
  utf8Dec := fun b => some b
  crypt := fun _ d => d
  dec_enc := fun _ => rfl
  crypt_invol := fun _ _ => rfl
  crypt_len := fun _ _ => rfl

/-! ### Configuration values and the INI format (`formats/ini_format.py`)

Configuration mappings are modelled two-level (sections of scalar
leaves), the shape the INI handler supports; a float leaf carries its
Python `str()` rendering as data, since float formatting is outside the
repository.  `configparser` is external; its write format, its
option-name lowercasing (`optionxform`), its `SECTCRE`/`OPTCRE` line
grammar (with `strict=True` duplicate detection) and its
`BasicInterpolation` hooks are modelled from CPython's documented
behaviour, the interpolation hooks restricted to percent-free values
(the `%%`/`%(name)s` escapes are out of the modelled domain). -/

/-- A scalar configuration leaf (string / int / float / bool). -/
inductive Leaf
  | lStr (s : Str)
  | lInt (n : Int)
  | lFloat (r : Str)
  | lBool (b : Bool)
deriving DecidableEq

/-- A top-level configuration value: a scalar or a section mapping. -/
inductive Value
  | leaf (x : Leaf)
  | vDict (fields : List (Str × Leaf))
deriving DecidableEq

/-- Decimal digits of a natural number (fuel-driven). -/
def natDigitsAux : Nat → Nat → Str
  | 0, _ => []
  | fuel + 1, n =>
    if n < 10 then [48 + n]
    else natDigitsAux fuel (n / 10) ++ [48 + n % 10]

/-- Python `str(n)` for a natural number. -/
def natDigits (n : Nat) : Str := natDigitsAux (n + 1) n

/-- Python `str(n)` for an `int`. -/
def intDigits (n : Int) : Str :=
  if n < 0 then 45 :: natDigits (-n).toNat else natDigits n.toNat

/-- Python `str(...)` of a scalar leaf, as applied by
`parser.set(section, key, str(value))`. -/
def pyStr : Leaf → Str
  | .lStr s => s
  | .lInt n => intDigits n
  | .lFloat r => r
  | .lBool b => if b then sb "True" else sb "False"

/-- Python `type(values).__name__` for the dump error message. -/
def pyTypeName : Value → Str
  | .leaf (.lStr _) => sb "str"
  | .leaf (.lInt _) => sb "int"
  | .leaf (.lFloat _) => sb "float"
  | .leaf (.lBool _) => sb "bool"
  | .vDict _ => sb "dict"

/-- `BasicInterpolation.before_set`, restricted to percent-free values:
a value containing `%` is rejected (in CPython, unescaped `%` raises
`ValueError`; the escaped forms are out of the modelled domain). -/
def beforeSetOk (v : Str) : Bool := v.all (fun c => c ≠ 37)

/-- `BasicInterpolation.before_get` applied by `parser.items(section)`,
with the same percent-free restriction: identity on percent-free
values, failure otherwise. -/
def interpGet (v : Str) : Option Str :=
  if v.all (fun c => c ≠ 37) then some v else none

/-- `str.lower()` (ASCII), configparser's default `optionxform`. -/
def lowerAscii (s : Str) : Str :=
  s.map (fun c => if 65 ≤ c ∧ c ≤ 90 then c + 32 else c)

/-- `value.replace('\n', '\n\t')`, applied by `configparser.write` to
render multi-line values. -/
def replaceNlTab : Str → Str
  | [] => []
  | c :: rest => if c = 10 then 10 :: 9 :: replaceNlTab rest else c :: replaceNlTab rest

/-- The text line written for one option: `key = value`. -/
def optLine (kv : Str × Leaf) : Str :=
  lowerAscii kv.1 ++ sb " = " ++ replaceNlTab (pyStr kv.2)

/-- The lines `configparser.write` produces for one section: header,
one line per option, then a blank separator line. -/
def sectionLines (sec : Str) (opts : List (Str × Leaf)) : List Str :=
  (91 :: (sec ++ [93])) :: (opts.map optLine ++ [[]])

/-- Join lines, each followed by a newline (the shape of
`configparser.write` output). -/
def linesText (ls : List Str) : Str :=
  ls.foldr (fun l acc => l ++ 10 :: acc) []

/-- The full text `INIFormat.dump` produces for well-formed data. -/
def iniSectionText (sec : Str) (opts : List (Str × Leaf)) : Str :=
  linesText (sectionLines sec opts)

/-- The nested-structure `FormatError` message, verbatim from the
source f-string. -/
def nestedMsg (sec : Str) (v : Value) : Str :=
  sb "INI format requires nested structure: section '" ++ sec ++
    sb "' contains " ++ pyTypeName v ++ sb ", not dict"

/-- `INIFormat.dump`: walk the top-level items in order; a non-dict
value raises the nested-structure `FormatError`; `add_section` rejects
the reserved `DEFAULT` name and `set` applies the interpolation check,
both wrapped into the generic serialization `FormatError`; otherwise
emit the configparser text. -/
def iniDump : List (Str × Value) → Except Str Str
  | [] => .ok []
  | (sec, v) :: rest =>
    match v with
    | .vDict opts =>
      if sec = sb "DEFAULT" then .error (sb "Failed to serialize to INI")
      else if opts.all (fun kv => beforeSetOk (pyStr kv.2)) then
        match iniDump rest with
        | .ok t => .ok (iniSectionText sec opts ++ t)
        | .error e => .error e
      else .error (sb "Failed to serialize to INI")
    | .leaf _ => .error (nestedMsg sec v)

/-- Parser accumulator: completed sections, plus the open section and
its options. -/
structure PAcc where
  done : List (Str × List (Str × Str))
  curName : Option Str
  curOpts : List (Str × Str)

/-- Close the open section. -/
def flushCur (a : PAcc) : List (Str × List (Str × Str)) :=
  match a.curName with
  | none => a.done
  | some n => a.done ++ [(n, a.curOpts)]

/-- `SECTCRE` (`\[(?P<header>.+)\]`) on a stripped line: a leading
`[`, a non-empty greedy header up to the last `]`; trailing characters
after it are ignored by `re.match`. -/
def parseSectionLine (v : Str) : Option Str :=
  match v with
  | [] => none
  | c :: rest =>
    if c = 91 then
      match rest.reverse.dropWhile (fun c => c ≠ 93) with
      | [] => none
      | d :: rname =>
        if d = 93 ∧ rname.reverse ≠ [] then some rname.reverse else none
    else none

/-- Split a line at the first `=` or `:` delimiter. -/
def splitFirstDelim : Str → Option (Str × Str)
  | [] => none
  | c :: rest =>
    if c = 61 ∨ c = 58 then some ([], rest)
    else
      match splitFirstDelim rest with
      | some (k, v) => some (c :: k, v)
      | none => none

/-- `OPTCRE` on a stripped line plus the reader's post-processing: the
option name is right-stripped and passed through `optionxform`
(lowercasing), the value is stripped; an empty option name is a parse
error. -/
def parseOptLine (v : Str) : Option (Str × Str) :=
  match splitFirstDelim v with
  | some (k, val) =>
    if stripR k = [] then none
    else some (lowerAscii (stripR k), strip val)
  | none => none

/-- Append a continuation line to the value of the last option. -/
def appendCont (opts : List (Str × Str)) (v : Str) : Option (List (Str × Str)) :=
  match opts.reverse with
  | [] => none
  | (k, val) :: rt => some ((k, val ++ 10 :: v) :: rt).reverse

/-- One step of `RawConfigParser._read` on a raw line: skip blank lines
and full-line comments; an indented non-blank line continues the
current option's value; otherwise try the section header grammar
(rejecting duplicate sections — `strict=True` — and the reserved
`DEFAULT` name, whose defaults-merging is out of the modelled domain)
and then the option grammar (rejecting an option outside any section
and duplicate options). -/
def parseLine (a : PAcc) (line : Str) : Except Str PAcc :=
  if strip line = [] then .ok a
  else if (strip line).head? = some 35 || (strip line).head? = some 59 then .ok a
  else if (line.head?.map isSpaceB).getD false then
    match a.curName with
    | some _ =>
      match appendCont a.curOpts (strip line) with
      | some opts2 => .ok ⟨a.done, a.curName, opts2⟩
      | none => .error (sb "Failed to parse INI")
    | none => .error (sb "Failed to parse INI")
  else
    match parseSectionLine (strip line) with
    | some sec =>
      if sec ∈ (flushCur a).map Prod.fst || sec = sb "DEFAULT" then
        .error (sb "Failed to parse INI")
      else .ok ⟨flushCur a, some sec, []⟩
    | none =>
      match parseOptLine (strip line) with
      | some kv =>
        match a.curName with
        | none => .error (sb "Failed to parse INI")
        | some _ =>
          if kv.1 ∈ a.curOpts.map Prod.fst then .error (sb "Failed to parse INI")
          else .ok ⟨a.done, a.curName, a.curOpts ++ [kv]⟩
      | none => .error (sb "Failed to parse INI")

/-- Fold the reader over the lines. -/
def iniLoadGo (a : PAcc) : List Str → Except Str PAcc
  | [] => .ok a
  | l :: ls =>
    match parseLine a l with
    | .ok a2 => iniLoadGo a2 ls
    | .error e => .error e

/-- Interpolate every option value of a section (`parser.items`). -/
def interpOpts : List (Str × Str) → Option (List (Str × Str))
  | [] => some []
  | (k, v) :: rest =>
    match interpGet v, interpOpts rest with
    | some v2, some r2 => some ((k, v2) :: r2)
    | _, _ => none

/-- Interpolate every section. -/
def interpSections :
    List (Str × List (Str × Str)) → Option (List (Str × List (Str × Str)))
  | [] => some []
  | (n, opts) :: rest =>
    match interpOpts opts, interpSections rest with
    | some o2, some r2 => some ((n, o2) :: r2)
    | _, _ => none

/-- `INIFormat.load`: run the reader over the split lines, then build
`{section: dict(parser.items(section))}`; any reader or interpolation
failure is a `FormatError`. -/
def iniLoad (text : Str) : Except Str (List (Str × Value)) :=
  match iniLoadGo ⟨[], none, []⟩ (splitNl text) with
  | .error e => .error e
  | .ok a =>
    match interpSections (flushCur a) with
    | some secs =>
      .ok (secs.map (fun p => (p.1, Value.vDict (p.2.map (fun q => (q.1, Leaf.lStr q.2))))))
    | none => .error (sb "Failed to parse INI")

/-- Normalize every leaf of a two-level mapping to its string form (the
comparison the INI round-trip law is stated against). -/
def normalizeLeaves (M : List (Str × Value)) : List (Str × Value) :=
  M.map (fun p =>
    (p.1, match p.2 with
      | Value.vDict opts => Value.vDict (opts.map (fun q => (q.1, Leaf.lStr (pyStr q.2))))
      | w => w))

/-- Lowercase-identifier names: non-empty, over `a-z0-9_-`.  Such names
survive `optionxform`, contain no whitespace, delimiter, comment,
bracket or percent characters, and exclude the reserved `DEFAULT`. -/
def simpleName (s : Str) : Bool :=
  s ≠ [] && s.all (fun c =>
    (97 ≤ c && c ≤ 122) || (48 ≤ c && c ≤ 57) || c = 95 || c = 45)

/-- Round-trippable leaf string forms: printable ASCII, percent-free,
with no leading or trailing space (configparser strips values on
read). -/
def simpleValStr (s : Str) : Bool :=
  s.all (fun c => 32 ≤ c && c ≤ 126 && c ≠ 37) &&
    s.head? ≠ some 32 && s.getLast? ≠ some 32

/-- A leaf whose string form round-trips. -/
def simpleLeaf : Leaf → Bool
  | .lStr s => simpleValStr s
  | .lInt _ => true
  | .lFloat r => simpleValStr r
  | .lBool _ => true

/-- A section whose names and leaves round-trip: unique simple keys,
simple leaves. -/
def simpleSectionV : Value → Bool
  | .vDict opts =>
    decide ((opts.map Prod.fst).Nodup) &&
      opts.all (fun q => simpleName q.1 && simpleLeaf q.2)
  | .leaf _ => false

/-- The mapping class for the INI round-trip law: unique simple section
names, each section simple. -/
def simpleMapping (M : List (Str × Value)) : Bool :=
  decide ((M.map Prod.fst).Nodup) &&
    M.all (fun p => simpleName p.1 && simpleSectionV p.2)

/-- The options of a section value (empty for a scalar). -/
def dictOpts : Value → List (Str × Leaf)
  | .vDict opts => opts
  | .leaf _ => []

/-- The `(key, str(value))` pairs the reader recovers for a section. -/
def optPairs (opts : List (Str × Leaf)) : List (Str × Str) :=
  opts.map (fun q => (q.1, pyStr q.2))

/-- The reader state a dump of `M` should produce: every section with
its options rendered to strings. -/
def parsedSections (M : List (Str × Value)) : List (Str × List (Str × Str)) :=
  M.map (fun p => (p.1, optPairs (dictOpts p.2)))

/-- All lines of the dump of `M`. -/
def dumpLines : List (Str × Value) → List Str
  | [] => []
  | p :: rest => sectionLines p.1 (dictOpts p.2) ++ dumpLines rest

/-! ### Config manager (`config.py`)

`ConfigManager` state is the in-memory entry map plus the per-entry
file contents on disk; file permissions and the filesystem path layout
are I/O details outside the embedding.  `schema.validate` (whose module
is not part of the embedded sources) passes already-string-typed fields
through unchanged per the spec, so the mappings below are the
post-validation mappings; the schema's sensitive-field set is passed
explicitly.  The fresh random IV of each `obscure.obscure` call and the
fresh nonce of each `crypt.encrypt` call are supplied as indexed
streams. -/

/-- Python `dict` lookup on an ordered association list. -/
def alookup {α : Type} : List (Str × α) → Str → Option α
  | [], _ => none
  | (k, v) :: rest, key => if k = key then some v else alookup rest key

/-- Python `dict` assignment: replace in place, else append. -/
def upsert {α : Type} : List (Str × α) → Str → α → List (Str × α)
  | [], key, v => [(key, v)]
  | (k, w) :: rest, key, v =>
    if k = key then (k, v) :: rest else (k, w) :: upsert rest key v

/-- One iteration of `add_config`'s obscuring loop for a single
sensitive field: if the field is present with a string value that the
heuristic does not classify as already obscured, replace it by its
obscured form (under the fresh IV for this iteration). -/
def obscureField (E : ObscureEnv) (iv : List Nat)
    (cfg : List (Str × Value)) (field : Str) : List (Str × Value) :=
  match alookup cfg field with
  | some (Value.leaf (Leaf.lStr s)) =>
    if isObscured E s then cfg
    else upsert cfg field (Value.leaf (Leaf.lStr (obscure E s iv)))
  | _ => cfg

/-- `add_config`'s loop over the sensitive fields, threading the
fresh-IV stream by iteration index. -/
def obscureSensitive (E : ObscureEnv) (ivOf : Nat → List Nat) :
    Nat → List Str → List (Str × Value) → List (Str × Value)
  | _, [], cfg => cfg
  | i, f :: rest, cfg =>
    obscureSensitive E ivOf (i + 1) rest (obscureField E (ivOf i) cfg f)

/-- Manager state: the configured password, the in-memory entry map
and the per-entry serialized file contents on disk. -/
structure MState where
  password : Option Str
  configs : List (Str × List (Str × Value))
  disk : List (Str × Str)

/-- The failures `_save_config` can surface: `FormatError` from the
format handler's dump, `EncryptionError` from `crypt.encrypt`, and the
`ValueError` for an empty entry name raised by `add_config` itself. -/
inductive SaveErr
  | fmtError (msg : Str)
  | encError (msg : String)
  | emptyName
deriving DecidableEq

/-- `_save_config`'s data path for one entry: serialize with the INI
handler, then encrypt when a password is configured (UTF-8 is the
identity on this ASCII text).  The file write and the `chmod(0o600)`
are I/O outside the embedding. -/
def saveConfigBytes (C : CryptoModel) (pw : Option Str) (nonce : List Nat)
    (data : List (Str × Value)) : Except SaveErr Str :=
  match iniDump data with
  | .error e => .error (.fmtError e)
  | .ok text =>
    match pw with
    | none => .ok text
    | some p =>
      match encrypt C text p nonce with
      | .error e => .error (.encError e)
      | .ok blob => .ok blob

/-- `add_config`: reject an empty name; obscure the sensitive fields
when requested and any are declared; install the entry into the
in-memory map; then `_save_config` — whose failure propagates *after*
the in-memory map was already updated, leaving the disk untouched. -/
def addConfigModel (C : CryptoModel) (E : ObscureEnv) (ivOf : Nat → List Nat)
    (nonce : List Nat) (sensitive : List Str) (st : MState) (name : Str)
    (cfg : List (Str × Value)) (obscurePasswords : Bool) :
    MState × Option SaveErr :=
  if name = [] then (st, some .emptyName)
  else
    let cfg2 :=
      if obscurePasswords && !sensitive.isEmpty then
        obscureSensitive E ivOf 0 sensitive cfg
      else cfg
    let configs2 := upsert st.configs name cfg2
    match saveConfigBytes C st.password nonce cfg2 with
    | .error e => (⟨st.password, configs2, st.disk⟩, some e)
    | .ok blob => (⟨st.password, configs2, upsert st.disk name blob⟩, none)

/-- The per-entry loop of `set_encryption_password`: save each entry
under the new password in order; stop at the first failure, reporting
the failing entry's name, with the earlier writes kept. -/
def rotateWrites (C : CryptoModel) (nonceOf : Nat → List Nat) (newPw : Str) :
    Nat → List (Str × List (Str × Value)) → List (Str × Str) →
      List (Str × Str) × Option (Str × SaveErr)
  | _, [], disk => (disk, none)
  | i, (name, data) :: rest, disk =>
    match saveConfigBytes C (some newPw) (nonceOf i) data with
    | .ok blob => rotateWrites C nonceOf newPw (i + 1) rest (upsert disk name blob)
    | .error e => (disk, some (name, e))

/-- `set_encryption_password`: set the new password, re-save every
entry; on the first failure restore the previous password and surface
an `EncryptionError` naming the failing entry, keeping the files
already rewritten. -/
def setEncPasswordModel (C : CryptoModel) (nonceOf : Nat → List Nat)
    (st : MState) (newPw : Str) : MState × Option (Str × SaveErr) :=
  match rotateWrites C nonceOf newPw 0 st.configs st.disk with
  | (disk2, none) => (⟨some newPw, st.configs, disk2⟩, none)
  | (disk2, some f) => (⟨st.password, st.configs, disk2⟩, some f)

/-! ### Association-list facts -/

/-! ### Claim theorems -/

/-! ### Lemmas for the obscuring loop -/

/-! ### Rotation lemma for C6 -/

/-! ### Lemmas for the INI round trip (C9) -/

/-! ### Lemmas and claim theorems -/

theorem splitNl_ne_nil (l : Str) : splitNl l ≠ [] := by
  induction l with
  | nil => simp [splitNl]
  | cons c rest ih =>
    simp only [splitNl]
    by_cases h : c = 10
    · simp [h]
    · simp only [h, if_false]
      cases hs : splitNl rest with
      | nil => simp
      | cons a as => simp

/-- Splitting distributes over an explicit newline separator. -/
theorem splitNl_append (a b : Str) :
    splitNl (a ++ 10 :: b) = splitNl a ++ splitNl b := by
  induction a with
  | nil => simp [splitNl]
  | cons c rest ih =>
    simp only [List.cons_append, splitNl]
    by_cases h : c = 10
    · simp [h, ih]
    · simp only [h, if_false]
      simp only [List.append_eq]
      rw [ih]
      cases hs : splitNl rest with
      | nil => exact absurd hs (splitNl_ne_nil rest)
      | cons l ls => simp

theorem nonBlankLines_append (a b : Str) :
    nonBlankLines (a ++ 10 :: b) = nonBlankLines a ++ nonBlankLines b := by
  simp [nonBlankLines, splitNl_append, List.filter_append]

theorem strip_of_allWhite (l : Str) (h : allWhite l = true) : strip l = [] := by
  have hL : stripL l = [] := by
    simp only [allWhite, List.all_eq_true] at h
    induction l with
    | nil => rfl
    | cons c rest ih =>
      simp only [stripL, List.dropWhile_cons]
      rw [h c (by simp)]
      · exact ih (fun x hx => h x (by simp [hx]))
  simp [strip, hL, stripR]

theorem splitNl_allWhite (l : Str) (h : allWhite l = true) :
    ∀ p ∈ splitNl l, allWhite p = true := by
  induction l with
  | nil => intro p hp; simp [splitNl] at hp; simp [hp, allWhite]
  | cons c rest ih =>
    simp only [allWhite, List.all_cons, Bool.and_eq_true] at h
    intro p hp
    simp only [splitNl] at hp
    by_cases hc : c = 10
    · simp only [hc, if_true, List.mem_cons] at hp
      rcases hp with hp | hp
      · simp [hp, allWhite]
      · exact ih h.2 p hp
    · simp only [hc, if_false] at hp
      cases hs : splitNl rest with
      | nil => exact absurd hs (splitNl_ne_nil rest)
      | cons a as =>
        rw [hs] at hp
        simp only [List.mem_cons] at hp
        rcases hp with hp | hp
        · subst hp
          simp only [allWhite, List.all_cons, h.1, Bool.true_and]
          have := ih h.2 a (by rw [hs]; simp)
          simpa [allWhite] using this
        · exact ih h.2 p (by rw [hs]; simp [hp])

/-- Blank (all-whitespace) text contributes no non-blank lines. -/
theorem nonBlankLines_allWhite (l : Str) (h : allWhite l = true) :
    nonBlankLines l = [] := by
  simp only [nonBlankLines, List.filter_eq_nil_iff]
  intro p hp
  simp only [List.mem_map] at hp
  obtain ⟨q, hq, rfl⟩ := hp
  simp [strip_of_allWhite q (splitNl_allWhite l h q hq)]

/-- A newline-free string splits into itself. -/
theorem splitNl_no_newline (l : Str) (h : 10 ∉ l) : splitNl l = [l] := by
  induction l with
  | nil => rfl
  | cons c rest ih =>
    simp only [List.mem_cons, not_or] at h
    have hc : c ≠ 10 := fun hcc => h.1 hcc.symm
    simp only [splitNl, hc, if_false, ih h.2]

/-- Stripping a string none of whose codepoints are whitespace is the
identity. -/
theorem strip_of_no_space (l : Str) (h : ∀ c ∈ l, isSpaceB c = false) :
    strip l = l := by
  have hL : stripL l = l := by
    cases l with
    | nil => rfl
    | cons c rest => simp [stripL, h c (by simp)]
  have hR : stripR l = l := by
    unfold stripR
    cases hrev : l.reverse with
    | nil => simp at hrev; simp [hrev]
    | cons c cs =>
      have hc : c ∈ l := by
        have : c ∈ l.reverse := by rw [hrev]; simp
        simpa using this
      rw [List.dropWhile_cons, h c hc]
      simp only [Bool.false_eq_true, if_false]
      rw [← hrev, List.reverse_reverse]
  rw [strip, hL, hR]

theorem nonBlankLines_single (l : Str) (hnl : 10 ∉ l)
    (hsp : ∀ c ∈ l, isSpaceB c = false) (hne : l ≠ []) :
    nonBlankLines l = [l] := by
  simp [nonBlankLines, splitNl_no_newline l hnl, strip_of_no_space l hsp, hne]

/-- Induction following the 3-byte grouping of the base64 encoders. -/
theorem chunk3Induction (P : List Nat → Prop) (h0 : P []) (h1 : ∀ b1, P [b1])
    (h2 : ∀ b1 b2, P [b1, b2])
    (h3 : ∀ b1 b2 b3 rest, P rest → P (b1 :: b2 :: b3 :: rest)) :
    ∀ l, P l
  | [] => h0
  | [b1] => h1 b1
  | [b1, b2] => h2 b1 b2
  | b1 :: b2 :: b3 :: rest =>
    h3 b1 b2 b3 rest (chunk3Induction P h0 h1 h2 h3 rest)

/-- Every character the padded encoder emits is the pad or an alphabet
character of a 6-bit value. -/
theorem mem_b64encGroups (ch : Nat → Nat) (l : List Nat)
    (hb : ∀ b ∈ l, b < 256) :
    ∀ c ∈ b64encGroups ch l, c = 61 ∨ ∃ v, v < 64 ∧ c = ch v := by
  induction l using chunk3Induction with
  | h0 => simp [b64encGroups]
  | h1 b1 =>
    have hb1 : b1 < 256 := hb b1 (by simp)
    intro c hc
    simp only [b64encGroups, List.mem_cons, List.mem_singleton] at hc
    rcases hc with rfl | rfl | rfl | h
    · exact Or.inr ⟨b1 / 4, by omega, rfl⟩
    · exact Or.inr ⟨(b1 % 4) * 16, by omega, rfl⟩
    · exact Or.inl rfl
    · simp at h; exact Or.inl h
  | h2 b1 b2 =>
    have hb1 : b1 < 256 := hb b1 (by simp)
    have hb2 : b2 < 256 := hb b2 (by simp)
    intro c hc
    simp only [b64encGroups, List.mem_cons, List.mem_singleton] at hc
    rcases hc with rfl | rfl | rfl | h
    · exact Or.inr ⟨b1 / 4, by omega, rfl⟩
    · exact Or.inr ⟨(b1 % 4) * 16 + b2 / 16, by omega, rfl⟩
    · exact Or.inr ⟨(b2 % 16) * 4, by omega, rfl⟩
    · simp at h; exact Or.inl h
  | h3 b1 b2 b3 rest ih =>
    have hb1 : b1 < 256 := hb b1 (by simp)
    have hb2 : b2 < 256 := hb b2 (by simp)
    have hb3 : b3 < 256 := hb b3 (by simp)
    intro c hc
    simp only [b64encGroups, List.mem_cons] at hc
    rcases hc with rfl | rfl | rfl | rfl | h
    · exact Or.inr ⟨b1 / 4, by omega, rfl⟩
    · exact Or.inr ⟨(b1 % 4) * 16 + b2 / 16, by omega, rfl⟩
    · exact Or.inr ⟨(b2 % 16) * 4 + b3 / 64, by omega, rfl⟩
    · exact Or.inr ⟨b3 % 64, by omega, rfl⟩
    · exact ih (fun b hbm => hb b (by simp [hbm])) c h

/-- Unfolding the decoder machine on a pad character. -/
theorem b64decGo_pad (val : Nat → Option Nat) (rest : Str)
    (quadPos leftchar pads : Nat) (acc : List Nat) :
    b64decGo val (61 :: rest) quadPos leftchar pads acc =
      if 2 ≤ quadPos then
        if 4 ≤ quadPos + (pads + 1) then some acc.reverse
        else b64decGo val rest quadPos leftchar (pads + 1) acc
      else b64decGo val rest quadPos leftchar pads acc := by
  simp [b64decGo]

/-- Unfolding the decoder machine on an alphabet character. -/
theorem b64decGo_char (val : Nat → Option Nat) (c : Nat) (rest : Str)
    (quadPos leftchar pads : Nat) (acc : List Nat) (v : Nat)
    (hc : c ≠ 61) (hv : val c = some v) :
    b64decGo val (c :: rest) quadPos leftchar pads acc =
      if quadPos = 0 then b64decGo val rest 1 v 0 acc
      else if quadPos = 1 then
        b64decGo val rest 2 (v % 16) 0 ((leftchar * 4 + v / 16) :: acc)
      else if quadPos = 2 then
        b64decGo val rest 3 (v % 4) 0 ((leftchar * 16 + v / 4) :: acc)
      else b64decGo val rest 0 0 0 ((leftchar * 64 + v) :: acc) := by
  simp [b64decGo, hc, hv]

/-- Run from the empty state, the decoder machine inverts the padded
encoder, appending the decoded bytes after the reversed accumulator
(the trailing-pad cases stop at the pads, discarding nothing). -/
theorem b64decGo_enc (ch : Nat → Nat) (val : Nat → Option Nat)
    (hval : ∀ v, v < 64 → val (ch v) = some v)
    (hne : ∀ v, v < 64 → ch v ≠ 61) (l : List Nat)
    (hb : ∀ b ∈ l, b < 256) :
    ∀ acc, b64decGo val (b64encGroups ch l) 0 0 0 acc =
      some (acc.reverse ++ l) := by
  induction l using chunk3Induction with
  | h0 => intro acc; simp [b64encGroups, b64decGo]
  | h1 b1 =>
    intro acc
    have hb1 : b1 < 256 := hb b1 (by simp)
    simp only [b64encGroups]
    rw [b64decGo_char val (ch (b1 / 4)) _ 0 0 0 acc (b1 / 4)
        (hne (b1 / 4) (by omega)) (hval (b1 / 4) (by omega)),
      if_pos (show (0 : Nat) = 0 from rfl),
      b64decGo_char val (ch (b1 % 4 * 16)) _ 1 (b1 / 4) 0 acc (b1 % 4 * 16)
        (hne (b1 % 4 * 16) (by omega)) (hval (b1 % 4 * 16) (by omega)),
      if_neg (show ¬((1 : Nat) = 0) from by decide),
      if_pos (show (1 : Nat) = 1 from rfl),
      b64decGo_pad, if_pos (show 2 ≤ (2 : Nat) from by decide),
      if_neg (show ¬(4 ≤ 2 + (0 + 1)) from by decide),
      b64decGo_pad, if_pos (show 2 ≤ (2 : Nat) from by decide),
      if_pos (show 4 ≤ 2 + (1 + 1) from by decide),
      show b1 / 4 * 4 + b1 % 4 * 16 / 16 = b1 from by omega]
    simp
  | h2 b1 b2 =>
    intro acc
    have hb1 : b1 < 256 := hb b1 (by simp)
    have hb2 : b2 < 256 := hb b2 (by simp)
    simp only [b64encGroups]
    rw [b64decGo_char val (ch (b1 / 4)) _ 0 0 0 acc (b1 / 4)
        (hne (b1 / 4) (by omega)) (hval (b1 / 4) (by omega)),
      if_pos (show (0 : Nat) = 0 from rfl),
      b64decGo_char val (ch (b1 % 4 * 16 + b2 / 16)) _ 1 (b1 / 4) 0 acc
        (b1 % 4 * 16 + b2 / 16)
        (hne (b1 % 4 * 16 + b2 / 16) (by omega))
        (hval (b1 % 4 * 16 + b2 / 16) (by omega)),
      if_neg (show ¬((1 : Nat) = 0) from by decide),
      if_pos (show (1 : Nat) = 1 from rfl),
      b64decGo_char val (ch (b2 % 16 * 4)) _ 2 ((b1 % 4 * 16 + b2 / 16) % 16) 0
        ((b1 / 4 * 4 + (b1 % 4 * 16 + b2 / 16) / 16) :: acc) (b2 % 16 * 4)
        (hne (b2 % 16 * 4) (by omega)) (hval (b2 % 16 * 4) (by omega)),
      if_neg (show ¬((2 : Nat) = 0) from by decide),
      if_neg (show ¬((2 : Nat) = 1) from by decide),
      if_pos (show (2 : Nat) = 2 from rfl),
      b64decGo_pad, if_pos (show 2 ≤ (3 : Nat) from by decide),
      if_pos (show 4 ≤ 3 + (0 + 1) from by decide),
      show b1 / 4 * 4 + (b1 % 4 * 16 + b2 / 16) / 16 = b1 from by omega,
      show (b1 % 4 * 16 + b2 / 16) % 16 * 16 + b2 % 16 * 4 / 4 = b2 from by
        omega]
    simp
  | h3 b1 b2 b3 rest ih =>
    intro acc
    have hb1 : b1 < 256 := hb b1 (by simp)
    have hb2 : b2 < 256 := hb b2 (by simp)
    have hb3 : b3 < 256 := hb b3 (by simp)
    have ih' := ih (fun b hbm => hb b (by simp [hbm]))
    simp only [b64encGroups]
    rw [b64decGo_char val (ch (b1 / 4)) _ 0 0 0 acc (b1 / 4)
        (hne (b1 / 4) (by omega)) (hval (b1 / 4) (by omega)),
      if_pos (show (0 : Nat) = 0 from rfl),
      b64decGo_char val (ch (b1 % 4 * 16 + b2 / 16)) _ 1 (b1 / 4) 0 acc
        (b1 % 4 * 16 + b2 / 16)
        (hne (b1 % 4 * 16 + b2 / 16) (by omega))
        (hval (b1 % 4 * 16 + b2 / 16) (by omega)),
      if_neg (show ¬((1 : Nat) = 0) from by decide),
      if_pos (show (1 : Nat) = 1 from rfl),
      b64decGo_char val (ch (b2 % 16 * 4 + b3 / 64)) _ 2
        ((b1 % 4 * 16 + b2 / 16) % 16) 0
        ((b1 / 4 * 4 + (b1 % 4 * 16 + b2 / 16) / 16) :: acc)
        (b2 % 16 * 4 + b3 / 64)
        (hne (b2 % 16 * 4 + b3 / 64) (by omega))
        (hval (b2 % 16 * 4 + b3 / 64) (by omega)),
      if_neg (show ¬((2 : Nat) = 0) from by decide),
      if_neg (show ¬((2 : Nat) = 1) from by decide),
      if_pos (show (2 : Nat) = 2 from rfl),
      b64decGo_char val (ch (b3 % 64)) _ 3 ((b2 % 16 * 4 + b3 / 64) % 4) 0
        (((b1 % 4 * 16 + b2 / 16) % 16 * 16 + (b2 % 16 * 4 + b3 / 64) / 4) ::
          (b1 / 4 * 4 + (b1 % 4 * 16 + b2 / 16) / 16) :: acc) (b3 % 64)
        (hne (b3 % 64) (by omega)) (hval (b3 % 64) (by omega)),
      if_neg (show ¬((3 : Nat) = 0) from by decide),
      if_neg (show ¬((3 : Nat) = 1) from by decide),
      if_neg (show ¬((3 : Nat) = 2) from by decide),
      show b1 / 4 * 4 + (b1 % 4 * 16 + b2 / 16) / 16 = b1 from by omega,
      show (b1 % 4 * 16 + b2 / 16) % 16 * 16 + (b2 % 16 * 4 + b3 / 64) / 4 = b2
        from by omega,
      show (b2 % 16 * 4 + b3 / 64) % 4 * 64 + b3 % 64 = b3 from by omega,
      ih' (b3 :: b2 :: b1 :: acc)]
    simp

/-- The padded encoder emits only ASCII characters, so `.encode("ascii")`
succeeds on its output. -/
theorem b64encGroups_ascii (ch : Nat → Nat) (l : List Nat)
    (hb : ∀ b ∈ l, b < 256) (hascii : ∀ v, v < 64 → ch v < 128) :
    (b64encGroups ch l).all (fun c => c < 128) = true := by
  rw [List.all_eq_true]
  intro c hc
  rcases mem_b64encGroups ch l hb c hc with rfl | ⟨v, hv, rfl⟩
  · decide
  · simpa using hascii v hv

/-- Round trip: lenient decode inverts the padded encoder. -/
theorem b64decode_enc (ch : Nat → Nat) (val : Nat → Option Nat)
    (hval : ∀ v, v < 64 → val (ch v) = some v)
    (hne : ∀ v, v < 64 → ch v ≠ 61)
    (hascii : ∀ v, v < 64 → ch v < 128) (l : List Nat)
    (hb : ∀ b ∈ l, b < 256) :
    b64decode val (b64encGroups ch l) = some l := by
  rw [b64decode, if_pos (b64encGroups_ascii ch l hb hascii),
    b64decGo_enc ch val hval hne l hb]
  simp

theorem repad_cons4 (a b c d : Nat) (t : Str) :
    repad (a :: b :: c :: d :: t) = a :: b :: c :: d :: repad t := by
  have hlen : (4 - (t.length + 4) % 4) % 4 = (4 - t.length % 4) % 4 := by omega
  simp [repad, hlen]

/-- Re-padding the stripped encoding recovers the padded encoding. -/
theorem repad_b64encNoPad (ch : Nat → Nat) (l : List Nat) :
    repad (b64encNoPad ch l) = b64encGroups ch l := by
  induction l using chunk3Induction with
  | h0 => simp [b64encNoPad, b64encGroups, repad]
  | h1 b1 => simp [b64encNoPad, b64encGroups, repad, List.replicate]
  | h2 b1 b2 => simp [b64encNoPad, b64encGroups, repad, List.replicate]
  | h3 b1 b2 b3 rest ih =>
    simp only [b64encNoPad, b64encGroups, repad_cons4, ih]

theorem b64encNoPad_eq_nil_iff (ch : Nat → Nat) (l : List Nat) :
    b64encNoPad ch l = [] ↔ l = [] := by
  match l with
  | [] => simp [b64encNoPad]
  | [b1] => simp [b64encNoPad]
  | [b1, b2] => simp [b64encNoPad]
  | b1 :: b2 :: b3 :: rest => simp [b64encNoPad]

theorem b64encGroups_eq_nil_iff (ch : Nat → Nat) (l : List Nat) :
    b64encGroups ch l = [] ↔ l = [] := by
  match l with
  | [] => simp [b64encGroups]
  | [b1] => simp [b64encGroups]
  | [b1, b2] => simp [b64encGroups]
  | b1 :: b2 :: b3 :: rest => simp [b64encGroups]

theorem b64valStd_charStd : ∀ v, v < 64 → b64valStd (b64charStd v) = some v := by
  decide

theorem b64charStd_ne_pad : ∀ v, v < 64 → b64charStd v ≠ 61 := by decide

theorem b64valUrl_charUrl : ∀ v, v < 64 → b64valUrl (b64charUrl v) = some v := by
  decide

theorem b64charUrl_ne_pad : ∀ v, v < 64 → b64charUrl v ≠ 61 := by decide

theorem b64charStd_ascii : ∀ v, v < 64 → b64charStd v < 128 := by decide

theorem b64charUrl_ascii : ∀ v, v < 64 → b64charUrl v < 128 := by decide

theorem b64charStd_not_space : ∀ v, v < 64 → isSpaceB (b64charStd v) = false := by
  decide

/-- The base64 payload line contains no whitespace codepoints. -/
theorem b64enc_no_space (l : List Nat) (hb : ∀ b ∈ l, b < 256) :
    ∀ c ∈ b64encGroups b64charStd l, isSpaceB c = false := by
  intro c hc
  rcases mem_b64encGroups _ l hb c hc with rfl | ⟨v, hv, rfl⟩
  · decide
  · exact b64charStd_not_space v hv

/-- Splitting an encrypt-shaped blob yields exactly the header line and
the payload line. -/
theorem nonBlankLines_encBlob (s64 : Str)
    (hsp : ∀ c ∈ s64, isSpaceB c = false) (hne : s64 ≠ []) :
    nonBlankLines (encHeader ++ 10 :: (s64 ++ [10])) = [encHeader, s64] := by
  have h10 : 10 ∉ s64 := by
    intro hmem
    have := hsp 10 hmem
    simp [isSpaceB] at this
  have h1 : nonBlankLines (s64 ++ [10]) = [s64] := by
    have : s64 ++ [10] = s64 ++ 10 :: ([] : Str) := rfl
    rw [this, nonBlankLines_append]
    rw [nonBlankLines_single s64 h10 hsp hne]
    rfl
  rw [nonBlankLines_append, h1]
  have hhdr : nonBlankLines encHeader = [encHeader] := by decide
  rw [hhdr]
  rfl

theorem obscure_ne_nil (E : ObscureEnv) (s : Str) (iv : List Nat)
    (hs : s ≠ []) (h16 : iv.length = 16) : obscure E s iv ≠ [] := by
  unfold obscure
  rw [if_neg hs, Ne, b64encNoPad_eq_nil_iff]
  intro h
  have := congrArg List.length h
  simp [List.length_append, h16] at this

/-- Round trip of the obscure pipeline: re-padding undoes the pad
strip, base64url decoding undoes the encoding, the length check
passes, and CTR involution plus UTF-8 round trip recover the input. -/
theorem reveal_obscure (E : ObscureEnv) (s : Str) (iv : List Nat)
    (hs : s ≠ []) (h16 : iv.length = 16)
    (hb : ∀ x ∈ iv ++ E.crypt iv (E.utf8Enc s), x < 256) :
    reveal E (obscure E s iv) = some s := by
  unfold reveal
  rw [if_neg (obscure_ne_nil E s iv hs h16)]
  unfold obscure
  rw [if_neg hs, repad_b64encNoPad,
    b64decode_enc b64charUrl b64valUrl b64valUrl_charUrl b64charUrl_ne_pad
      b64charUrl_ascii _ hb]
  have hlen : ¬((iv ++ E.crypt iv (E.utf8Enc s)).length < 16) := by
    simp [List.length_append, h16]
  simp only [hlen, if_false, List.take_left' h16, List.drop_left' h16,
    E.crypt_invol, E.dec_enc]

/-- Distinct IVs give distinct obscured outputs (the formal content of
"two calls draw fresh randomness, so their outputs differ"). -/
theorem obscure_iv_inj (E : ObscureEnv) (s : Str) (iv iv2 : List Nat)
    (hs : s ≠ []) (h16 : iv.length = 16) (h16b : iv2.length = 16)
    (hb : ∀ x ∈ iv ++ E.crypt iv (E.utf8Enc s), x < 256)
    (hb2 : ∀ x ∈ iv2 ++ E.crypt iv2 (E.utf8Enc s), x < 256)
    (hne : iv ≠ iv2) :
    obscure E s iv ≠ obscure E s iv2 := by
  intro heq
  unfold obscure at heq
  rw [if_neg hs, if_neg hs] at heq
  have h1 := congrArg (fun t => b64decode b64valUrl (repad t)) heq
  simp only [repad_b64encNoPad,
    b64decode_enc b64charUrl b64valUrl b64valUrl_charUrl b64charUrl_ne_pad
      b64charUrl_ascii _ hb,
    b64decode_enc b64charUrl b64valUrl b64valUrl_charUrl b64charUrl_ne_pad
      b64charUrl_ascii _ hb2,
    Option.some.injEq] at h1
  have h2 := congrArg (List.take 16) h1
  rw [List.take_left' h16, List.take_left' h16b] at h2
  exact hne h2

/-- An obscured value whose plaintext is printable is classified as
obscured by the heuristic. -/
theorem isObscured_obscure (E : ObscureEnv) (s : Str) (iv : List Nat)
    (hs : s ≠ []) (h16 : iv.length = 16)
    (hb : ∀ x ∈ iv ++ E.crypt iv (E.utf8Enc s), x < 256)
    (hpr : isPrintableStr s = true) :
    isObscured E (obscure E s iv) = true := by
  unfold isObscured
  rw [if_neg (obscure_ne_nil E s iv hs h16), reveal_obscure E s iv hs h16 hb]
  exact hpr

theorem alookup_upsert_self {α : Type} (l : List (Str × α)) (k : Str) (v : α) :
    alookup (upsert l k v) k = some v := by
  induction l with
  | nil => simp [upsert, alookup]
  | cons p rest ih =>
    obtain ⟨k0, w⟩ := p
    by_cases h : k0 = k
    · simp [upsert, h, alookup]
    · simp [upsert, h, alookup, ih]

theorem alookup_upsert_other {α : Type} (l : List (Str × α)) (k k2 : Str)
    (v : α) (h : k ≠ k2) : alookup (upsert l k v) k2 = alookup l k2 := by
  induction l with
  | nil => simp [upsert, alookup, h]
  | cons p rest ih =>
    obtain ⟨k0, w⟩ := p
    by_cases h0 : k0 = k
    · subst h0
      simp [upsert, alookup, h]
    · simp [upsert, h0, alookup, ih]

/-- C10: `reveal("")` returns the empty string rather than raising
(its early return precedes base64 decoding and the 16-byte minimum
check), and `is_obscured("")` returns false. -/
theorem c10_empty_string (E : ObscureEnv) :
    reveal E [] = some [] ∧ isObscured E [] = false := by
  constructor
  · simp [reveal]
  · simp [isObscured]

/-- C2: for every non-empty string `s`, `reveal (obscure s) = s`, and
two `obscure` calls that draw distinct fresh 16-byte IVs produce
different output strings — the formal content of the output's
non-determinism under fresh per-call randomness. -/
theorem c2_obscure_roundtrip (E : ObscureEnv) (s : Str) (iv iv2 : List Nat)
    (hs : s ≠ []) (h16 : iv.length = 16) (h16b : iv2.length = 16)
    (hb : ∀ x ∈ iv ++ E.crypt iv (E.utf8Enc s), x < 256)
    (hb2 : ∀ x ∈ iv2 ++ E.crypt iv2 (E.utf8Enc s), x < 256)
    (hne : iv ≠ iv2) :
    reveal E (obscure E s iv) = some s ∧ obscure E s iv ≠ obscure E s iv2 :=
  ⟨reveal_obscure E s iv hs h16 hb,
   obscure_iv_inj E s iv iv2 hs h16 h16b hb hb2 hne⟩

theorem c2_obscure_roundtrip_witness :
    reveal toyObscureEnv
        (obscure toyObscureEnv (sb "secret") (List.replicate 16 7)) =
      some (sb "secret") ∧
    obscure toyObscureEnv (sb "secret") (List.replicate 16 7) ≠
      obscure toyObscureEnv (sb "secret") (8 :: List.replicate 15 7) :=
  c2_obscure_roundtrip toyObscureEnv (sb "secret") (List.replicate 16 7)
    (8 :: List.replicate 15 7) (by decide) (by decide) (by decide) (by decide)
    (by decide) (by decide)

/-- C1 (amended): for every payload and non-empty password, encrypt
succeeds and decrypt under the same password recovers the payload;
decrypt under a different *non-empty* password fails with
`InvalidPasswordError`.  (The non-emptiness of the second password is
the amendment: an empty second password trips `derive_key`'s
`ValueError`, which `decrypt` wraps into a generic `DecryptionError`
instead.) -/
theorem c1_encrypt_decrypt (C : CryptoModel) (b p p2 nonce : List Nat)
    (hp : p ≠ []) (hp2 : p2 ≠ []) (hne : p2 ≠ p)
    (hb : ∀ x ∈ C.sealMsg (C.derive p) nonce b, x < 256)
    (hs : C.sealMsg (C.derive p) nonce b ≠ []) :
    encrypt C b p nonce =
      .ok (encHeader ++ 10 ::
        (b64encGroups b64charStd (C.sealMsg (C.derive p) nonce b) ++ [10])) ∧
    decrypt C (encHeader ++ 10 ::
        (b64encGroups b64charStd (C.sealMsg (C.derive p) nonce b) ++ [10])) p =
      .ok b ∧
    decrypt C (encHeader ++ 10 ::
        (b64encGroups b64charStd (C.sealMsg (C.derive p) nonce b) ++ [10])) p2 =
      .error .invalidPassword := by
  have hlines := nonBlankLines_encBlob
    (b64encGroups b64charStd (C.sealMsg (C.derive p) nonce b))
    (b64enc_no_space _ hb) (by rw [Ne, b64encGroups_eq_nil_iff]; exact hs)
  have hpref : encPrefixTag.isPrefixOf encHeader = true := by decide
  have hdec := b64decode_enc b64charStd b64valStd b64valStd_charStd
    b64charStd_ne_pad b64charStd_ascii (C.sealMsg (C.derive p) nonce b) hb
  refine ⟨?_, ?_, ?_⟩
  · unfold encrypt deriveKey
    rw [if_neg hp]
  · unfold decrypt
    rw [hlines]
    simp only [hpref, Bool.true_eq_false, if_false, ne_eq, eq_self_iff_true,
      not_true, hdec, deriveKey, hp, C.open_seal]
  · unfold decrypt
    rw [hlines]
    simp only [hpref, Bool.true_eq_false, if_false, ne_eq, eq_self_iff_true,
      not_true, hdec, deriveKey, hp2,
      C.open_wrong (C.derive p) (C.derive p2) nonce b (C.derive_inj p2 p hne)]

theorem c1_encrypt_decrypt_witness :
    decrypt toyCrypto (encHeader ++ 10 ::
        (b64encGroups b64charStd
          (toyCrypto.sealMsg (toyCrypto.derive [97]) [0] [1, 2, 3]) ++ [10]))
      [97] = .ok [1, 2, 3] ∧
    decrypt toyCrypto (encHeader ++ 10 ::
        (b64encGroups b64charStd
          (toyCrypto.sealMsg (toyCrypto.derive [97]) [0] [1, 2, 3]) ++ [10]))
      [98] = .error .invalidPassword :=
  ⟨(c1_encrypt_decrypt toyCrypto [1, 2, 3] [97] [98] [0] (by decide) (by decide)
      (by decide) (by decide) (by decide)).2.1,
   (c1_encrypt_decrypt toyCrypto [1, 2, 3] [97] [98] [0] (by decide) (by decide)
      (by decide) (by decide) (by decide)).2.2⟩

/-- C1 counterexample: the claim as stated quantifies over *every*
different second password, but decrypting with the empty password
yields the generic wrapped `DecryptionError` (`derive_key`'s
`ValueError` is caught by the catch-all), not `InvalidPasswordError`. -/
theorem c1_counterexample :
    (encrypt toyCrypto [1, 2, 3] [97] (List.replicate 24 0)).toOption.isSome =
      true ∧
    decrypt toyCrypto
        ((encrypt toyCrypto [1, 2, 3] [97] (List.replicate 24 0)).toOption.getD [])
        [] = .error DecErr.otherError ∧
    DecErr.otherError ≠ DecErr.invalidPassword :=
  ⟨by decide, by decide, by decide⟩

/-- C3 (amended): `decrypt` classifies its failures into mutually
distinguishable kinds — with the amendment that an input with *no*
non-blank line gets its own "Empty config data" error, distinct from
the "not encrypted" error an unprefixed first line gets.  A prefixed
but non-matching first line yields the unsupported-version error
carrying the mismatched version fragment; a missing second line the
no-payload error; a payload that fails base64 decoding the decoding
error; and an authenticated-open failure `InvalidPasswordError`,
separable from all of the former. -/
theorem c3_decrypt_error_kinds (C : CryptoModel) (p : Str) :
    (∀ data, nonBlankLines data = [] →
      decrypt C data p = .error .emptyData) ∧
    (∀ data l0 rest, nonBlankLines data = l0 :: rest →
      encPrefixTag.isPrefixOf l0 = false →
      decrypt C data p = .error .notEncrypted) ∧
    (∀ data l0 rest, nonBlankLines data = l0 :: rest →
      encPrefixTag.isPrefixOf l0 = true → l0 ≠ encHeader →
      decrypt C data p = .error (.unsupportedVersion (versionOf l0))) ∧
    (∀ data, nonBlankLines data = [encHeader] →
      decrypt C data p = .error .noPayload) ∧
    (∀ data l1 rest, nonBlankLines data = encHeader :: l1 :: rest →
      b64decode b64valStd l1 = none →
      decrypt C data p = .error .invalidBase64) ∧
    (∀ data l1 rest enc, nonBlankLines data = encHeader :: l1 :: rest →
      b64decode b64valStd l1 = some enc → p ≠ [] →
      C.openSealed (C.derive p) enc = none →
      decrypt C data p = .error .invalidPassword) ∧
    (∀ v, [DecErr.emptyData, DecErr.notEncrypted, DecErr.unsupportedVersion v,
      DecErr.noPayload, DecErr.invalidBase64,
      DecErr.invalidPassword].Pairwise (· ≠ ·)) := by
  have hpref : encPrefixTag.isPrefixOf encHeader = true := by decide
  refine ⟨?_, ?_, ?_, ?_, ?_, ?_, ?_⟩
  · intro data h
    unfold decrypt
    rw [h]
  · intro data l0 rest h hnp
    unfold decrypt
    rw [h]
    simp only [hnp, eq_self_iff_true, if_true]
  · intro data l0 rest h hp hne
    unfold decrypt
    rw [h]
    simp only [hp, Bool.true_eq_false, if_false, ne_eq, hne, not_false_iff,
      if_true]
  · intro data h
    unfold decrypt
    rw [h]
    simp only [hpref, Bool.true_eq_false, if_false, ne_eq, eq_self_iff_true,
      not_true]
  · intro data l1 rest h hb
    unfold decrypt
    rw [h]
    simp only [hpref, Bool.true_eq_false, if_false, ne_eq, eq_self_iff_true,
      not_true, hb]
  · intro data l1 rest enc h hb hp ho
    unfold decrypt
    rw [h]
    simp only [hpref, Bool.true_eq_false, if_false, ne_eq, eq_self_iff_true,
      not_true, hb, deriveKey, hp, ho]
  · intro v
    simp

theorem c3_decrypt_error_kinds_witness :
    decrypt toyCrypto (encHeader ++ 10 :: (sb "abc" ++ [10])) [97] =
      .error DecErr.invalidBase64 :=
  (c3_decrypt_error_kinds toyCrypto [97]).2.2.2.2.1
    (encHeader ++ 10 :: (sb "abc" ++ [10])) (sb "abc") [] (by decide) (by decide)

/-- C3 counterexample: on input with no non-blank line the error is
the distinct "Empty config data" `DecryptionError`, not the
"not encrypted" one the claim assigns to an absent first line. -/
theorem c3_counterexample :
    decrypt toyCrypto [] [97] = .error DecErr.emptyData ∧
    DecErr.emptyData ≠ DecErr.notEncrypted :=
  ⟨by decide, by decide⟩

/-- C7: `is_encrypted` is true iff the first non-blank (stripped) line
equals the current version header exactly; in particular a first line
differing from the header — for example one carrying the encryption
prefix with another version — is not classified as encrypted; and
leading/trailing blank (all-whitespace) content around the blob does
not change the probe's verdict. -/
theorem c7_is_encrypted :
    (∀ data, isEncryptedB data = true ↔
      (nonBlankLines data).head? = some encHeader) ∧
    (∀ data l0 rest, nonBlankLines data = l0 :: rest → l0 ≠ encHeader →
      isEncryptedB data = false) ∧
    (∀ ws ws2 data, allWhite ws = true → allWhite ws2 = true →
      isEncryptedB (ws ++ 10 :: (data ++ 10 :: ws2)) = isEncryptedB data) := by
  refine ⟨?_, ?_, ?_⟩
  · intro data
    unfold isEncryptedB
    cases h : nonBlankLines data with
    | nil => simp
    | cons l0 rest => simp [beq_iff_eq]
  · intro data l0 rest h hne
    unfold isEncryptedB
    rw [h]
    simp [beq_iff_eq, hne]
  · intro ws ws2 data hw hw2
    unfold isEncryptedB
    rw [nonBlankLines_append, nonBlankLines_append,
      nonBlankLines_allWhite ws hw, nonBlankLines_allWhite ws2 hw2,
      List.nil_append, List.append_nil]

theorem c7_is_encrypted_witness :
    isEncryptedB ([32, 10] ++ 10 :: (encHeader ++ 10 :: [10, 9])) =
      isEncryptedB encHeader ∧
    isEncryptedB encHeader = true :=
  ⟨(c7_is_encrypted).2.2 [32, 10] [10, 9] encHeader (by decide) (by decide),
   by decide⟩

/-- C8: dumping a mapping whose first offending top-level value is not
itself a mapping (the items before it being well-formed sections)
raises `FormatError`; the message contains "nested structure" and names
the offending key. -/
theorem c8_ini_dump_nested (pre : List (Str × Value)) (k : Str) (x : Leaf)
    (post : List (Str × Value))
    (hpre : ∀ q ∈ pre, (∃ opts, q.2 = Value.vDict opts ∧
      opts.all (fun kv => beforeSetOk (pyStr kv.2)) = true) ∧ q.1 ≠ sb "DEFAULT") :
    iniDump (pre ++ (k, Value.leaf x) :: post) =
      .error (nestedMsg k (Value.leaf x)) ∧
    (sb "nested structure") <:+: nestedMsg k (Value.leaf x) ∧
    k <:+: nestedMsg k (Value.leaf x) := by
  refine ⟨?_, ?_, ?_⟩
  · induction pre with
    | nil => simp [iniDump]
    | cons q pre' ih =>
      obtain ⟨⟨opts, hq, hvals⟩, hdef⟩ := hpre q (by simp)
      obtain ⟨sec, v⟩ := q
      simp only at hq
      subst hq
      have ih2 := ih (fun r hr => hpre r (by simp [hr]))
      simp only [List.cons_append, iniDump, hvals, hdef, if_false, if_true]
      simp only [List.append_eq]
      rw [ih2]
  · refine ⟨sb "INI format requires ",
      sb ": section '" ++ k ++ sb "' contains " ++ pyTypeName (Value.leaf x) ++
        sb ", not dict", ?_⟩
    have hsplit : sb "INI format requires " ++ sb "nested structure" ++
        sb ": section '" = sb "INI format requires nested structure: section '" := by
      decide
    simp only [nestedMsg, ← hsplit, List.append_assoc]
  · exact ⟨sb "INI format requires nested structure: section '",
      sb "' contains " ++ pyTypeName (Value.leaf x) ++ sb ", not dict",
      by simp only [nestedMsg, List.append_assoc]⟩

theorem c8_ini_dump_nested_witness :
    iniDump [(sb "top", Value.leaf (Leaf.lStr (sb "not-a-mapping")))] =
      .error (nestedMsg (sb "top") (Value.leaf (Leaf.lStr (sb "not-a-mapping")))) ∧
    (sb "nested structure") <:+:
      nestedMsg (sb "top") (Value.leaf (Leaf.lStr (sb "not-a-mapping"))) ∧
    (sb "top") <:+:
      nestedMsg (sb "top") (Value.leaf (Leaf.lStr (sb "not-a-mapping"))) :=
  c8_ini_dump_nested [] (sb "top") (Leaf.lStr (sb "not-a-mapping")) []
    (by simp)

theorem obscureField_other (E : ObscureEnv) (iv : List Nat)
    (cfg : List (Str × Value)) (f field : Str) (h : f ≠ field) :
    alookup (obscureField E iv cfg f) field = alookup cfg field := by
  unfold obscureField
  cases alookup cfg f with
  | none => rfl
  | some v =>
    cases v with
    | vDict opts => rfl
    | leaf x =>
      cases x with
      | lStr s =>
        by_cases ho : isObscured E s
        · simp [ho]
        · simp [ho, alookup_upsert_other _ _ _ _ h]
      | lInt n => rfl
      | lFloat r => rfl
      | lBool b => rfl

theorem obscureSensitive_not_mem (E : ObscureEnv) (ivOf : Nat → List Nat)
    (post : List Str) :
    ∀ (i : Nat) (cfg : List (Str × Value)) (field : Str), field ∉ post →
      alookup (obscureSensitive E ivOf i post cfg) field = alookup cfg field := by
  induction post with
  | nil => intro i cfg field _; rfl
  | cons f rest ih =>
    intro i cfg field h
    simp only [List.mem_cons, not_or] at h
    simp only [obscureSensitive]
    rw [ih (i + 1) _ field h.2,
      obscureField_other E (ivOf i) cfg f field (fun hc => h.1 hc.symm)]

theorem obscureSensitive_lookup (E : ObscureEnv) (ivOf : Nat → List Nat)
    (pre : List Str) :
    ∀ (post : List Str) (i : Nat) (cfg : List (Str × Value)) (field : Str)
      (s : Str), field ∉ pre → field ∉ post →
      alookup cfg field = some (Value.leaf (Leaf.lStr s)) →
      alookup (obscureSensitive E ivOf i (pre ++ field :: post) cfg) field =
        some (Value.leaf (Leaf.lStr
          (if isObscured E s then s else obscure E s (ivOf (i + pre.length))))) := by
  induction pre with
  | nil =>
    intro post i cfg field s _ hnq hlook
    simp only [List.nil_append, obscureSensitive]
    rw [obscureSensitive_not_mem E ivOf post (i + 1) _ field hnq]
    unfold obscureField
    rw [hlook]
    by_cases ho : isObscured E s
    · simp [ho, hlook]
    · simp [ho, alookup_upsert_self]
  | cons f pre' ih =>
    intro post i cfg field s hnp hnq hlook
    simp only [List.mem_cons, not_or] at hnp
    simp only [List.cons_append, obscureSensitive]
    have hOther := obscureField_other E (ivOf i) cfg f field
      (fun hc => hnp.1 hc.symm)
    have hstep := ih post (i + 1) (obscureField E (ivOf i) cfg f) field s hnp.2
      hnq (by rw [hOther]; exact hlook)
    have hidx : i + 1 + pre'.length = i + (f :: pre').length := by
      simp only [List.length_cons]
      omega
    simp only [List.append_eq]
    rw [hstep, hidx]

/-- C4 (amended): with obscuring enabled and a sensitive field present
as a plain string, `add_config`'s obscuring loop replaces a value the
heuristic does not classify as obscured by its obscured form under that
iteration's fresh IV, and leaves a value classified as obscured
unchanged; re-running the loop leaves the field unchanged *provided the
original plaintext is printable* (the amendment: a non-printable
plaintext defeats the `is_obscured` heuristic and is obscured again). -/
theorem c4_obscure_sensitive (E : ObscureEnv) (ivOf : Nat → List Nat)
    (pre post : List Str) (field : Str) (cfg : List (Str × Value)) (s : Str)
    (hnp : field ∉ pre) (hnq : field ∉ post)
    (hlook : alookup cfg field = some (Value.leaf (Leaf.lStr s))) :
    (isObscured E s = false →
      alookup (obscureSensitive E ivOf 0 (pre ++ field :: post) cfg) field =
        some (Value.leaf (Leaf.lStr (obscure E s (ivOf pre.length))))) ∧
    (isObscured E s = true →
      alookup (obscureSensitive E ivOf 0 (pre ++ field :: post) cfg) field =
        some (Value.leaf (Leaf.lStr s))) ∧
    (isObscured E s = false → s ≠ [] → (ivOf pre.length).length = 16 →
      (∀ x ∈ ivOf pre.length ++
        E.crypt (ivOf pre.length) (E.utf8Enc s), x < 256) →
      isPrintableStr s = true →
      alookup (obscureSensitive E ivOf 0 (pre ++ field :: post)
          (obscureSensitive E ivOf 0 (pre ++ field :: post) cfg)) field =
        alookup (obscureSensitive E ivOf 0 (pre ++ field :: post) cfg) field) := by
  have hmain := obscureSensitive_lookup E ivOf pre post 0 cfg field s hnp hnq hlook
  rw [Nat.zero_add] at hmain
  refine ⟨?_, ?_, ?_⟩
  · intro ho
    rw [hmain, ho]
    simp
  · intro ho
    rw [hmain, ho]
    simp
  · intro ho hs h16 hb hpr
    have h1 : alookup (obscureSensitive E ivOf 0 (pre ++ field :: post) cfg)
        field = some (Value.leaf (Leaf.lStr (obscure E s (ivOf pre.length)))) := by
      rw [hmain, ho]
      simp
    have hcls : isObscured E (obscure E s (ivOf pre.length)) = true :=
      isObscured_obscure E s (ivOf pre.length) hs h16 hb hpr
    have h2 := obscureSensitive_lookup E ivOf pre post 0
      (obscureSensitive E ivOf 0 (pre ++ field :: post) cfg) field
      (obscure E s (ivOf pre.length)) hnp hnq h1
    rw [Nat.zero_add, hcls] at h2
    simp only [if_true] at h2
    rw [h2, h1]

theorem c4_obscure_sensitive_witness :
    alookup (obscureSensitive toyObscureEnv (fun _ => List.replicate 16 5) 0
        [sb "password"] [(sb "password", Value.leaf (Leaf.lStr (sb "secret")))])
      (sb "password") =
      some (Value.leaf (Leaf.lStr
        (obscure toyObscureEnv (sb "secret") (List.replicate 16 5)))) ∧
    alookup (obscureSensitive toyObscureEnv (fun _ => List.replicate 16 5) 0
        [sb "password"]
        (obscureSensitive toyObscureEnv (fun _ => List.replicate 16 5) 0
          [sb "password"]
          [(sb "password", Value.leaf (Leaf.lStr (sb "secret")))]))
      (sb "password") =
      alookup (obscureSensitive toyObscureEnv (fun _ => List.replicate 16 5) 0
        [sb "password"] [(sb "password", Value.leaf (Leaf.lStr (sb "secret")))])
      (sb "password") :=
  ⟨(c4_obscure_sensitive toyObscureEnv (fun _ => List.replicate 16 5) [] []
      (sb "password") [(sb "password", Value.leaf (Leaf.lStr (sb "secret")))]
      (sb "secret") (by decide) (by decide) (by decide)).1 (by decide),
   (c4_obscure_sensitive toyObscureEnv (fun _ => List.replicate 16 5) [] []
      (sb "password") [(sb "password", Value.leaf (Leaf.lStr (sb "secret")))]
      (sb "secret") (by decide) (by decide) (by decide)).2.2 (by decide)
      (by decide) (by decide) (by decide) (by decide)⟩

/-- C4 counterexample: a non-printable plaintext ("a\nb") is obscured
by the first `add_config`, but its obscured form reveals to a
non-printable string, so `is_obscured` reports false and a second
`add_config` obscures it again — the stored value changes (it is now
the double-obscured form). -/
theorem c4_counterexample :
    alookup (obscureSensitive toyObscureEnv (fun _ => List.replicate 16 5) 0
        [sb "password"]
        (obscureSensitive toyObscureEnv (fun _ => List.replicate 16 5) 0
          [sb "password"] [(sb "password", Value.leaf (Leaf.lStr (sb "a\nb")))]))
      (sb "password") =
      some (Value.leaf (Leaf.lStr (obscure toyObscureEnv
        (obscure toyObscureEnv (sb "a\nb") (List.replicate 16 5))
        (List.replicate 16 5)))) ∧
    alookup (obscureSensitive toyObscureEnv (fun _ => List.replicate 16 5) 0
        [sb "password"]
        (obscureSensitive toyObscureEnv (fun _ => List.replicate 16 5) 0
          [sb "password"] [(sb "password", Value.leaf (Leaf.lStr (sb "a\nb")))]))
      (sb "password") ≠
      alookup (obscureSensitive toyObscureEnv (fun _ => List.replicate 16 5) 0
        [sb "password"] [(sb "password", Value.leaf (Leaf.lStr (sb "a\nb")))])
      (sb "password") :=
  ⟨by decide, by decide⟩

/-- C5 (amended): `add_config` installs the entry into the in-memory
map *before* saving; when serialization or encryption fails, the error
propagates with the new entry still in the in-memory map and the disk
untouched, so memory and disk diverge for that entry. -/
theorem c5_add_config_divergence (C : CryptoModel) (E : ObscureEnv)
    (ivOf : Nat → List Nat) (nonce : List Nat) (sensitive : List Str)
    (st : MState) (name : Str) (cfg : List (Str × Value)) (ob : Bool)
    (hname : name ≠ []) (e : SaveErr)
    (hfail : saveConfigBytes C st.password nonce
      (if ob && !sensitive.isEmpty then obscureSensitive E ivOf 0 sensitive cfg
       else cfg) = .error e) :
    addConfigModel C E ivOf nonce sensitive st name cfg ob =
      (⟨st.password,
        upsert st.configs name
          (if ob && !sensitive.isEmpty then
            obscureSensitive E ivOf 0 sensitive cfg else cfg),
        st.disk⟩, some e) ∧
    alookup (addConfigModel C E ivOf nonce sensitive st name cfg ob).1.configs
        name =
      some (if ob && !sensitive.isEmpty then
        obscureSensitive E ivOf 0 sensitive cfg else cfg) := by
  have h1 : addConfigModel C E ivOf nonce sensitive st name cfg ob =
      (⟨st.password,
        upsert st.configs name
          (if ob && !sensitive.isEmpty then
            obscureSensitive E ivOf 0 sensitive cfg else cfg),
        st.disk⟩, some e) := by
    unfold addConfigModel
    rw [if_neg hname]
    simp only [hfail]
  refine ⟨h1, ?_⟩
  rw [h1]
  exact alookup_upsert_self _ _ _

theorem c5_add_config_divergence_witness :
    addConfigModel toyCrypto toyObscureEnv (fun _ => []) [] []
        ⟨none, [], []⟩ (sb "b")
        [(sb "top", Value.leaf (Leaf.lStr (sb "x")))] false =
      (⟨none,
        upsert ([] : List (Str × List (Str × Value))) (sb "b")
          (if false && !([] : List Str).isEmpty then
            obscureSensitive toyObscureEnv (fun _ => []) 0 []
              [(sb "top", Value.leaf (Leaf.lStr (sb "x")))]
          else [(sb "top", Value.leaf (Leaf.lStr (sb "x")))]),
        []⟩,
       some (SaveErr.fmtError
        (nestedMsg (sb "top") (Value.leaf (Leaf.lStr (sb "x")))))) :=
  (c5_add_config_divergence toyCrypto toyObscureEnv (fun _ => []) [] []
    ⟨none, [], []⟩ (sb "b") [(sb "top", Value.leaf (Leaf.lStr (sb "x")))] false
    (by decide)
    (SaveErr.fmtError (nestedMsg (sb "top") (Value.leaf (Leaf.lStr (sb "x")))))
    (by decide)).1

/-- C5 counterexample: on an empty manager with the INI handler, adding
an entry whose top-level value is not a mapping makes the dump fail —
yet the entry is present in the in-memory map while absent on disk. -/
theorem c5_counterexample :
    (alookup (addConfigModel toyCrypto toyObscureEnv (fun _ => []) [] []
        ⟨none, [], []⟩ (sb "a")
        [(sb "top", Value.leaf (Leaf.lStr (sb "x")))] true).1.configs
      (sb "a")).isSome = true ∧
    alookup (addConfigModel toyCrypto toyObscureEnv (fun _ => []) [] []
        ⟨none, [], []⟩ (sb "a")
        [(sb "top", Value.leaf (Leaf.lStr (sb "x")))] true).1.disk
      (sb "a") = none ∧
    (addConfigModel toyCrypto toyObscureEnv (fun _ => []) [] []
        ⟨none, [], []⟩ (sb "a")
        [(sb "top", Value.leaf (Leaf.lStr (sb "x")))] true).2.isSome = true :=
  ⟨by decide, by decide, by decide⟩

theorem rotateWrites_fail_spec (C : CryptoModel) (nonceOf : Nat → List Nat)
    (newPw : Str) :
    ∀ (cfgs : List (Str × List (Str × Value))) (i : Nat)
      (disk : List (Str × Str)) (n : Str) (e : SaveErr),
      (rotateWrites C nonceOf newPw i cfgs disk).2 = some (n, e) →
      ∃ pre data post, cfgs = pre ++ (n, data) :: post ∧
        saveConfigBytes C (some newPw) (nonceOf (i + pre.length)) data =
          .error e ∧
        (∀ j, (hj : j < pre.length) → ∃ blob,
          saveConfigBytes C (some newPw) (nonceOf (i + j))
            (pre.get ⟨j, hj⟩).2 = .ok blob) ∧
        (rotateWrites C nonceOf newPw i cfgs disk).1 =
          (rotateWrites C nonceOf newPw i pre disk).1 := by
  intro cfgs
  induction cfgs with
  | nil => intro i disk n e h; simp [rotateWrites] at h
  | cons entry rest ih =>
    intro i disk n e h
    obtain ⟨name, data⟩ := entry
    simp only [rotateWrites] at h ⊢
    cases hsave : saveConfigBytes C (some newPw) (nonceOf i) data with
    | error e0 =>
      rw [hsave] at h
      simp only at h
      obtain ⟨rfl, rfl⟩ := Prod.mk.injEq _ _ _ _ ▸ (Option.some.injEq _ _ ▸ h)
      refine ⟨[], data, rest, by simp, ?_, ?_, ?_⟩
      · simpa using hsave
      · intro j hj; simp at hj
      · simp [rotateWrites, hsave]
    | ok blob =>
      rw [hsave] at h
      simp only at h
      obtain ⟨pre', data', post', hdec, hfail, hok, hdisk⟩ :=
        ih (i + 1) (upsert disk name blob) n e h
      refine ⟨(name, data) :: pre', data', post', by simp [hdec], ?_, ?_, ?_⟩
      · have : i + ((name, data) :: pre').length = (i + 1) + pre'.length := by
          simp [List.length_cons]; omega
        rw [this]
        exact hfail
      · intro j hj
        cases j with
        | zero => exact ⟨blob, by simpa using hsave⟩
        | succ j' =>
          have hj' : j' < pre'.length := by
            simp [List.length_cons] at hj; omega
          obtain ⟨b2, hb2⟩ := hok j' hj'
          refine ⟨b2, ?_⟩
          have : i + (j' + 1) = (i + 1) + j' := by omega
          rw [this]
          simpa using hb2
      · simp only [rotateWrites, hsave]
        exact hdisk

/-- C6: when `set_encryption_password` fails on some entry, the
manager's password is rolled back to its previous value, the in-memory
entries are untouched, the failure names the failed entry (which is
the first entry whose re-save fails), and the entries re-saved before
it remain rewritten on disk under the new password. -/
theorem c6_set_password_rollback (C : CryptoModel) (nonceOf : Nat → List Nat)
    (st : MState) (newPw : Str) (n : Str) (e : SaveErr)
    (h : (setEncPasswordModel C nonceOf st newPw).2 = some (n, e)) :
    (setEncPasswordModel C nonceOf st newPw).1.password = st.password ∧
    (setEncPasswordModel C nonceOf st newPw).1.configs = st.configs ∧
    ∃ pre data post, st.configs = pre ++ (n, data) :: post ∧
      saveConfigBytes C (some newPw) (nonceOf pre.length) data = .error e ∧
      (∀ j, (hj : j < pre.length) → ∃ blob,
        saveConfigBytes C (some newPw) (nonceOf j)
          (pre.get ⟨j, hj⟩).2 = .ok blob) ∧
      (setEncPasswordModel C nonceOf st newPw).1.disk =
        (rotateWrites C nonceOf newPw 0 pre st.disk).1 := by
  cases hrot : rotateWrites C nonceOf newPw 0 st.configs st.disk with
  | mk disk2 opt =>
    cases opt with
    | none =>
      exfalso
      simp only [setEncPasswordModel, hrot] at h
      exact Option.noConfusion h
    | some f =>
      have hf : f = (n, e) := by
        simp only [setEncPasswordModel, hrot] at h
        exact Option.some_inj.mp h
      subst hf
      obtain ⟨pre, data, post, hdec, hfail, hok, hdisk⟩ :=
        rotateWrites_fail_spec C nonceOf newPw st.configs 0 st.disk n e
          (by rw [hrot])
      rw [Nat.zero_add] at hfail
      refine ⟨?_, ?_, pre, data, post, hdec, hfail, ?_, ?_⟩
      · simp [setEncPasswordModel, hrot]
      · simp [setEncPasswordModel, hrot]
      · intro j hj
        obtain ⟨blob, hb⟩ := hok j hj
        rw [Nat.zero_add] at hb
        exact ⟨blob, hb⟩
      · simp only [setEncPasswordModel, hrot]
        rw [hrot] at hdisk
        exact hdisk

theorem map_id_of_mem (f : Nat → Nat) (l : List Nat) (h : ∀ c ∈ l, f c = c) :
    l.map f = l := by
  induction l with
  | nil => rfl
  | cons c rest ih =>
    simp only [List.map_cons, h c (by simp), List.cons.injEq, true_and]
    exact ih (fun x hx => h x (by simp [hx]))

theorem simpleName_mem (s : Str) (h : simpleName s = true) :
    ∀ c ∈ s, (97 ≤ c ∧ c ≤ 122) ∨ (48 ≤ c ∧ c ≤ 57) ∨ c = 95 ∨ c = 45 := by
  simp only [simpleName, Bool.and_eq_true, List.all_eq_true, ne_eq,
    decide_eq_true_eq, Bool.or_eq_true] at h
  intro c hc
  have h2 := h.2 c hc
  simp only [Bool.and_eq_true, Bool.or_eq_true, decide_eq_true_eq] at h2
  tauto

theorem simpleName_ne_nil (s : Str) (h : simpleName s = true) : s ≠ [] := by
  simp only [simpleName, Bool.and_eq_true, ne_eq, decide_eq_true_eq] at h
  exact h.1

theorem simpleName_no_space (s : Str) (h : simpleName s = true) :
    ∀ c ∈ s, isSpaceB c = false := by
  intro c hc
  rcases simpleName_mem s h c hc with ⟨h1, _⟩ | ⟨h1, _⟩ | rfl | rfl <;>
    simp [isSpaceB] <;> omega

theorem simpleName_no_newline (s : Str) (h : simpleName s = true) : 10 ∉ s := by
  intro hc
  rcases simpleName_mem s h 10 hc with ⟨h1, _⟩ | ⟨h1, _⟩ | h1 | h1 <;> omega

theorem simpleName_no_delim (s : Str) (h : simpleName s = true) :
    ∀ c ∈ s, ¬(c = 61 ∨ c = 58) := by
  intro c hc
  rcases simpleName_mem s h c hc with ⟨h1, h2⟩ | ⟨h1, h2⟩ | rfl | rfl <;> omega

theorem lowerAscii_of_simple (s : Str) (h : simpleName s = true) :
    lowerAscii s = s := by
  unfold lowerAscii
  refine map_id_of_mem _ s (fun c hc => ?_)
  rcases simpleName_mem s h c hc with ⟨h1, h2⟩ | ⟨h1, h2⟩ | rfl | rfl <;>
    simp <;> omega

theorem simpleName_ne_DEFAULT (s : Str) (h : simpleName s = true) :
    s ≠ sb "DEFAULT" := by
  intro he
  have h68 : (68 : Nat) ∈ s := by rw [he]; decide
  rcases simpleName_mem s h 68 h68 with ⟨h1, _⟩ | ⟨h1, h2⟩ | h1 | h1 <;> omega

theorem simpleValStr_mem (s : Str) (h : simpleValStr s = true) :
    ∀ c ∈ s, 32 ≤ c ∧ c ≤ 126 ∧ c ≠ 37 := by
  simp only [simpleValStr, Bool.and_eq_true, List.all_eq_true] at h
  intro c hc
  have h2 := h.1.1 c hc
  simp only [Bool.and_eq_true, decide_eq_true_eq] at h2
  tauto

theorem stripL_no_lead (s : Str)
    (h : ∀ c, s.head? = some c → isSpaceB c = false) : stripL s = s := by
  cases s with
  | nil => rfl
  | cons c rest => simp [stripL, h c rfl]

theorem stripR_no_trail (s : Str)
    (h : ∀ c, s.getLast? = some c → isSpaceB c = false) : stripR s = s := by
  unfold stripR
  cases hrev : s.reverse with
  | nil => simp at hrev; simp [hrev]
  | cons c cs =>
    have hlast : s.getLast? = some c := by
      rw [← List.head?_reverse, hrev]
      rfl
    rw [List.dropWhile_cons, h c hlast]
    simp only [Bool.false_eq_true, if_false]
    rw [← hrev, List.reverse_reverse]

theorem not_space_of_class (c : Nat) (h32 : 32 ≤ c) (hne : c ≠ 32) :
    isSpaceB c = false := by
  simp only [isSpaceB, Bool.or_eq_false_iff, decide_eq_false_iff_not]
  omega

theorem simpleValStr_strip (s : Str) (h : simpleValStr s = true) :
    strip s = s := by
  have hclass := simpleValStr_mem s h
  simp only [simpleValStr, Bool.and_eq_true] at h
  obtain ⟨⟨hall, hhead⟩, hlast⟩ := h
  have hhead2 : s.head? ≠ some 32 := of_decide_eq_true hhead
  have hlast2 : s.getLast? ≠ some 32 := of_decide_eq_true hlast
  have hL : stripL s = s := by
    refine stripL_no_lead s (fun c hc => ?_)
    have hmem : c ∈ s := by
      cases s with
      | nil => simp at hc
      | cons a rest =>
        simp only [List.head?, Option.some.injEq] at hc
        simp [← hc]
    exact not_space_of_class c (hclass c hmem).1 (fun he => hhead2 (he ▸ hc))
  have hR : stripR s = s := by
    refine stripR_no_trail s (fun c hc => ?_)
    have hmem : c ∈ s := by
      have h1 : s.reverse.head? = some c := by rw [List.head?_reverse]; exact hc
      have h2 : c ∈ s.reverse := by
        cases hr : s.reverse with
        | nil => rw [hr] at h1; simp at h1
        | cons a rest =>
          rw [hr] at h1
          simp only [List.head?, Option.some.injEq] at h1
          simp [hr, ← h1]
      simpa using h2
    exact not_space_of_class c (hclass c hmem).1 (fun he => hlast2 (he ▸ hc))
  rw [strip, hL, hR]

theorem mem_of_head?_eq (l : List Nat) (c : Nat) (h : l.head? = some c) :
    c ∈ l := by
  cases l with
  | nil => simp at h
  | cons a rest =>
    simp only [List.head?, Option.some.injEq] at h
    simp [← h]

theorem mem_of_getLast?_eq (l : List Nat) (c : Nat) (h : l.getLast? = some c) :
    c ∈ l := by
  have h1 : l.reverse.head? = some c := by rw [List.head?_reverse]; exact h
  have h2 := mem_of_head?_eq l.reverse c h1
  simpa using h2

theorem natDigitsAux_mem :
    ∀ (fuel n : Nat), ∀ c ∈ natDigitsAux fuel n, 48 ≤ c ∧ c ≤ 57 := by
  intro fuel
  induction fuel with
  | zero => intro n c hc; simp [natDigitsAux] at hc
  | succ f ih =>
    intro n c hc
    simp only [natDigitsAux] at hc
    by_cases h : n < 10
    · rw [if_pos h] at hc
      simp only [List.mem_singleton] at hc
      omega
    · rw [if_neg h] at hc
      simp only [List.mem_append, List.mem_singleton] at hc
      rcases hc with hc | hc
      · exact ih (n / 10) c hc
      · omega

theorem intDigits_mem (n : Int) :
    ∀ c ∈ intDigits n, (48 ≤ c ∧ c ≤ 57) ∨ c = 45 := by
  intro c hc
  unfold intDigits natDigits at hc
  by_cases h : n < 0
  · rw [if_pos h] at hc
    simp only [List.mem_cons] at hc
    rcases hc with rfl | hc
    · right; rfl
    · left; exact natDigitsAux_mem _ _ c hc
  · rw [if_neg h] at hc
    left; exact natDigitsAux_mem _ _ c hc

theorem pyStr_simple (x : Leaf) (h : simpleLeaf x = true) :
    simpleValStr (pyStr x) = true := by
  cases x with
  | lStr s => exact h
  | lFloat r => exact h
  | lBool b => cases b <;> decide
  | lInt n =>
    simp only [simpleValStr, Bool.and_eq_true, List.all_eq_true]
    refine ⟨⟨?_, ?_⟩, ?_⟩
    · intro c hc
      rcases intDigits_mem n c hc with ⟨h1, h2⟩ | rfl <;>
        · simp only [Bool.and_eq_true, decide_eq_true_eq]
          omega
    · rw [decide_eq_true_eq]
      intro hh
      have hmem := mem_of_head?_eq _ 32 hh
      rcases intDigits_mem n 32 hmem with ⟨h1, h2⟩ | h1 <;> omega
    · rw [decide_eq_true_eq]
      intro hh
      have hmem := mem_of_getLast?_eq _ 32 hh
      rcases intDigits_mem n 32 hmem with ⟨h1, h2⟩ | h1 <;> omega

theorem simpleValStr_no_newline (s : Str) (h : simpleValStr s = true) :
    10 ∉ s := by
  intro hc
  have := (simpleValStr_mem s h 10 hc).1
  omega

theorem replaceNlTab_id (s : Str) (h : 10 ∉ s) : replaceNlTab s = s := by
  induction s with
  | nil => rfl
  | cons c rest ih =>
    simp only [List.mem_cons, not_or] at h
    simp only [replaceNlTab]
    rw [if_neg (fun hc => h.1 hc.symm), ih h.2]

theorem splitFirstDelim_append (pfx suf : Str)
    (h : ∀ c ∈ pfx, ¬(c = 61 ∨ c = 58)) :
    splitFirstDelim (pfx ++ 61 :: suf) = some (pfx, suf) := by
  induction pfx with
  | nil => simp [splitFirstDelim]
  | cons c rest ih =>
    simp only [List.cons_append, splitFirstDelim]
    simp only [List.append_eq]
    rw [if_neg (h c (by simp)), ih (fun x hx => h x (by simp [hx]))]

theorem dropWhile_head_false (p : Nat → Bool) (l : List Nat)
    (h : ∀ c, l.head? = some c → p c = false) : l.dropWhile p = l := by
  cases l with
  | nil => rfl
  | cons c rest => simp [List.dropWhile_cons, h c rfl]

theorem stripR_append_space (k : Str) (hk : ∀ c ∈ k, isSpaceB c = false) :
    stripR (k ++ [32]) = k := by
  unfold stripR
  rw [List.reverse_append]
  simp only [List.reverse_cons, List.reverse_nil, List.nil_append,
    List.singleton_append, List.dropWhile_cons]
  have h32 : isSpaceB 32 = true := by decide
  rw [h32]
  simp only [if_true]
  rw [dropWhile_head_false _ _ (fun c hc =>
    hk c (by simpa using mem_of_head?_eq _ c hc))]
  exact List.reverse_reverse k

theorem parseSectionLine_header (sec : Str) (hne : sec ≠ []) :
    parseSectionLine (91 :: (sec ++ [93])) = some sec := by
  have hdrop : List.dropWhile (fun c => decide (c ≠ 93)) (sec ++ [93]).reverse =
      93 :: sec.reverse := by
    rw [List.reverse_append]
    simp only [List.reverse_cons, List.reverse_nil, List.nil_append,
      List.singleton_append, List.dropWhile_cons]
    simp
  unfold parseSectionLine
  simp only [hdrop, List.reverse_reverse, ne_eq]
  simp [hne]

theorem parseSectionLine_not_bracket (v : Str)
    (h : ∀ c, v.head? = some c → c ≠ 91) : parseSectionLine v = none := by
  cases v with
  | nil => rfl
  | cons c rest =>
    have hc : c ≠ 91 := h c rfl
    simp [parseSectionLine, hc]

theorem optLine_eq (k : Str) (x : Leaf) (hk : simpleName k = true)
    (hx : simpleLeaf x = true) :
    optLine (k, x) = k ++ (32 :: 61 :: 32 :: pyStr x) := by
  unfold optLine
  rw [lowerAscii_of_simple k hk,
    replaceNlTab_id _ (simpleValStr_no_newline _ (pyStr_simple x hx))]
  have hsp : sb " = " = [32, 61, 32] := by decide
  rw [hsp]
  simp [List.append_assoc]

theorem strip_space_cons (v : Str) (hsv : simpleValStr v = true) :
    strip (32 :: v) = v := by
  have hclass := simpleValStr_mem v hsv
  have hs32 : isSpaceB 32 = true := by decide
  have hL : stripL (32 :: v) = stripL v := by simp [stripL, hs32]
  have hLv : stripL v = v := by
    refine stripL_no_lead v (fun c hc => ?_)
    have hmem := mem_of_head?_eq v c hc
    refine not_space_of_class c (hclass c hmem).1 (fun he => ?_)
    have hv32 : v.head? ≠ some 32 := by
      simp only [simpleValStr, Bool.and_eq_true] at hsv
      exact of_decide_eq_true hsv.1.2
    exact hv32 (he ▸ hc)
  have hR : stripR v = v := by
    refine stripR_no_trail v (fun c hc => ?_)
    have hmem := mem_of_getLast?_eq v c hc
    refine not_space_of_class c (hclass c hmem).1 (fun he => ?_)
    have hv32 : v.getLast? ≠ some 32 := by
      simp only [simpleValStr, Bool.and_eq_true] at hsv
      exact of_decide_eq_true hsv.2
    exact hv32 (he ▸ hc)
  rw [strip, hL, hLv, hR]

theorem strip_optLine (k : Str) (x : Leaf) (hk : simpleName k = true)
    (hx : simpleLeaf x = true) :
    strip (optLine (k, x)) =
      (k ++ [32]) ++ 61 :: (if pyStr x = [] then [] else 32 :: pyStr x) := by
  have hsv := pyStr_simple x hx
  rw [optLine_eq k x hk hx]
  obtain ⟨c, k', rfl⟩ : ∃ c k', k = c :: k' := by
    cases k with
    | nil => exact absurd rfl (simpleName_ne_nil _ hk)
    | cons c k' => exact ⟨c, k', rfl⟩
  have hcsp : isSpaceB c = false := simpleName_no_space _ hk c (by simp)
  have hL : stripL ((c :: k') ++ (32 :: 61 :: 32 :: pyStr x)) =
      (c :: k') ++ (32 :: 61 :: 32 :: pyStr x) := by
    simp [stripL, hcsp]
  rw [strip, hL]
  cases hv : pyStr x with
  | nil =>
    simp only [if_pos rfl]
    unfold stripR
    have hrev : ((c :: k') ++ (32 :: 61 :: 32 :: ([] : Str))).reverse =
        32 :: 61 :: 32 :: (c :: k').reverse := by simp
    rw [hrev]
    have h32 : isSpaceB 32 = true := by decide
    have h61 : isSpaceB 61 = false := by decide
    simp only [List.dropWhile_cons, h32, if_true, h61, Bool.false_eq_true,
      if_false]
    simp
  | cons w v' =>
    rw [if_neg (by simp)]
    have hR : stripR (c :: k' ++ 32 :: 61 :: 32 :: w :: v') =
        c :: k' ++ 32 :: 61 :: 32 :: w :: v' := by
      refine stripR_no_trail _ (fun d hd => ?_)
      rw [List.getLast?_append_cons] at hd
      rw [List.getLast?_cons_cons, List.getLast?_cons_cons,
        List.getLast?_cons_cons] at hd
      have hmem : d ∈ pyStr x := by
        rw [hv]
        exact mem_of_getLast?_eq _ d hd
      refine not_space_of_class d (simpleValStr_mem _ hsv d hmem).1
        (fun he => ?_)
      have hv32 : (pyStr x).getLast? ≠ some 32 := by
        simp only [simpleValStr, Bool.and_eq_true] at hsv
        exact of_decide_eq_true hsv.2
      rw [hv] at hv32
      exact hv32 (he ▸ hd)
    rw [hR]
    simp

theorem parseOpt_strip (k : Str) (x : Leaf) (hk : simpleName k = true)
    (hx : simpleLeaf x = true) :
    parseOptLine (strip (optLine (k, x))) = some (k, pyStr x) := by
  rw [strip_optLine k x hk hx]
  unfold parseOptLine
  rw [splitFirstDelim_append (k ++ [32]) _ (fun c hc => ?side)]
  case side =>
    simp only [List.mem_append, List.mem_singleton] at hc
    rcases hc with hc | rfl
    · exact simpleName_no_delim k hk c hc
    · omega
  simp only [stripR_append_space k (simpleName_no_space k hk)]
  rw [if_neg (simpleName_ne_nil k hk), lowerAscii_of_simple k hk]
  cases hv : pyStr x with
  | nil => simp [strip, stripL, stripR, hv]
  | cons w v' =>
    rw [if_neg (by simp)]
    have := strip_space_cons (pyStr x) (pyStr_simple x hx)
    rw [hv] at this
    rw [this, ← hv]

theorem parseLine_blank (a : PAcc) : parseLine a [] = .ok a := by
  simp [parseLine, strip, stripL, stripR]

theorem parseLine_header (a : PAcc) (sec : Str) (hsec : simpleName sec = true)
    (hdup : sec ∉ (flushCur a).map Prod.fst) :
    parseLine a (91 :: (sec ++ [93])) = .ok ⟨flushCur a, some sec, []⟩ := by
  have hstrip : strip (91 :: (sec ++ [93])) = 91 :: (sec ++ [93]) := by
    apply strip_of_no_space
    intro c hc
    simp only [List.mem_cons, List.mem_append, List.mem_singleton,
      List.not_mem_nil, or_false] at hc
    rcases hc with rfl | hc | rfl
    · decide
    · exact simpleName_no_space sec hsec c hc
    · decide
  unfold parseLine
  rw [hstrip]
  rw [if_neg (by simp)]
  rw [if_neg (by simp)]
  rw [if_neg (by simp [isSpaceB])]
  simp only [parseSectionLine_header sec (simpleName_ne_nil sec hsec)]
  simp [hdup, simpleName_ne_DEFAULT sec hsec]

theorem parseLine_opt (done : List (Str × List (Str × Str))) (n : Str)
    (cur : List (Str × Str)) (k : Str) (x : Leaf)
    (hk : simpleName k = true) (hx : simpleLeaf x = true)
    (hnd : k ∉ cur.map Prod.fst) :
    parseLine ⟨done, some n, cur⟩ (optLine (k, x)) =
      .ok ⟨done, some n, cur ++ [(k, pyStr x)]⟩ := by
  obtain ⟨c, k2, hk2⟩ : ∃ c k2, k = c :: k2 := by
    cases k with
    | nil => exact absurd rfl (simpleName_ne_nil _ hk)
    | cons c k2 => exact ⟨c, k2, rfl⟩
  have hcls := simpleName_mem k hk c (by rw [hk2]; simp)
  have hline := optLine_eq k x hk hx
  have hstrip := strip_optLine k x hk hx
  have hpo := parseOpt_strip k x hk hx
  rw [hstrip] at hpo
  have hnb := parseSectionLine_not_bracket
    ((k ++ [32]) ++ 61 :: (if pyStr x = [] then [] else 32 :: pyStr x))
    (fun d hd => by
      rw [hk2] at hd
      simp only [List.cons_append, List.head?, Option.some.injEq] at hd
      subst hd
      rcases hcls with ⟨h1, h2⟩ | ⟨h1, h2⟩ | rfl | rfl <;> omega)
  unfold parseLine
  rw [hstrip]
  rw [if_neg (by rw [hk2]; simp)]
  rw [if_neg (by
    rw [hk2]
    simp only [List.cons_append, List.head?]
    simp only [Bool.or_eq_true, decide_eq_true_eq, Option.some.injEq]
    rintro (rfl | rfl) <;>
      rcases hcls with ⟨h1, h2⟩ | ⟨h1, h2⟩ | h1 | h1 <;> omega)]
  rw [if_neg (by
    rw [hline, hk2]
    simp only [List.cons_append, List.head?]
    have hsp : isSpaceB c = false :=
      simpleName_no_space k hk c (by rw [hk2]; simp)
    simp [hsp])]
  simp only [hnb, hpo]
  rw [if_neg hnd]

theorem linesText_cons (l : Str) (rest : List Str) :
    linesText (l :: rest) = l ++ 10 :: linesText rest := rfl

theorem linesText_append (A B : List Str) :
    linesText (A ++ B) = linesText A ++ linesText B := by
  induction A with
  | nil => rfl
  | cons l rest ih =>
    simp only [List.cons_append, linesText_cons, ih, List.append_assoc,
      List.cons_append]

theorem splitNl_linesText (ls : List Str) (h : ∀ l ∈ ls, 10 ∉ l) :
    splitNl (linesText ls) = ls ++ [[]] := by
  induction ls with
  | nil => rfl
  | cons l rest ih =>
    rw [linesText_cons, splitNl_append, splitNl_no_newline l (h l (by simp)),
      ih (fun x hx => h x (by simp [hx]))]
    rfl

theorem iniLoadGo_append (a : PAcc) (xs ys : List Str) :
    iniLoadGo a (xs ++ ys) =
      match iniLoadGo a xs with
      | .ok a2 => iniLoadGo a2 ys
      | .error e => .error e := by
  induction xs generalizing a with
  | nil => simp [iniLoadGo]
  | cons l rest ih =>
    simp only [List.cons_append, iniLoadGo]
    cases parseLine a l with
    | ok a2 => exact ih a2
    | error e => rfl

theorem simpleMapping_nodup (M : List (Str × Value))
    (h : simpleMapping M = true) : (M.map Prod.fst).Nodup := by
  simp only [simpleMapping, Bool.and_eq_true, decide_eq_true_eq] at h
  exact h.1

theorem simpleMapping_head (sec : Str) (v : Value) (M' : List (Str × Value))
    (h : simpleMapping ((sec, v) :: M') = true) :
    simpleName sec = true ∧ simpleSectionV v = true ∧
      simpleMapping M' = true := by
  simp only [simpleMapping, Bool.and_eq_true, decide_eq_true_eq,
    List.map_cons, List.nodup_cons, List.all_cons] at h
  obtain ⟨⟨hn1, hn2⟩, hp, hrest⟩ := h
  refine ⟨hp.1, hp.2, ?_⟩
  simp only [simpleMapping, Bool.and_eq_true, decide_eq_true_eq]
  exact ⟨hn2, hrest⟩

theorem simpleSectionV_dict (v : Value) (h : simpleSectionV v = true) :
    ∃ opts, v = Value.vDict opts ∧ (opts.map Prod.fst).Nodup ∧
      ∀ q ∈ opts, simpleName q.1 = true ∧ simpleLeaf q.2 = true := by
  cases v with
  | leaf x => simp [simpleSectionV] at h
  | vDict opts =>
    simp only [simpleSectionV, Bool.and_eq_true, decide_eq_true_eq,
      List.all_eq_true] at h
    refine ⟨opts, rfl, h.1, fun q hq => ?_⟩
    have := h.2 q hq
    simpa [Bool.and_eq_true] using this

theorem beforeSetOk_of_simple (s : Str) (h : simpleValStr s = true) :
    beforeSetOk s = true := by
  simp only [beforeSetOk, List.all_eq_true, decide_eq_true_eq]
  intro c hc
  exact (simpleValStr_mem s h c hc).2.2

theorem interpGet_of_simple (s : Str) (h : simpleValStr s = true) :
    interpGet s = some s := by
  unfold interpGet
  rw [if_pos]
  simp only [List.all_eq_true, decide_eq_true_eq]
  intro c hc
  exact (simpleValStr_mem s h c hc).2.2

theorem interpOpts_optPairs (opts : List (Str × Leaf))
    (h : ∀ q ∈ opts, simpleLeaf q.2 = true) :
    interpOpts (optPairs opts) = some (optPairs opts) := by
  induction opts with
  | nil => rfl
  | cons q rest ih =>
    obtain ⟨k, x⟩ := q
    have ih2 := ih (fun r hr => h r (by simp [hr]))
    simp only [optPairs, List.map_cons] at ih2 ⊢
    simp only [interpOpts,
      interpGet_of_simple _ (pyStr_simple x (h (k, x) (by simp))), ih2]

theorem iniLoadGo_optLines (opts : List (Str × Leaf)) :
    ∀ (done : List (Str × List (Str × Str))) (n : Str)
      (cur : List (Str × Str)),
      (∀ q ∈ opts, simpleName q.1 = true ∧ simpleLeaf q.2 = true) →
      (cur.map Prod.fst ++ opts.map Prod.fst).Nodup →
      iniLoadGo ⟨done, some n, cur⟩ (opts.map optLine) =
        .ok ⟨done, some n, cur ++ optPairs opts⟩ := by
  induction opts with
  | nil => intro done n cur _ _; simp [iniLoadGo, optPairs]
  | cons q rest ih =>
    intro done n cur hsimple hnd
    obtain ⟨k, x⟩ := q
    have hk := (hsimple (k, x) (by simp)).1
    have hx := (hsimple (k, x) (by simp)).2
    have hknd : k ∉ cur.map Prod.fst := by
      rw [List.nodup_append] at hnd
      intro hmem
      exact hnd.2.2 hmem (by simp)
    have hnd2 : ((cur ++ [(k, pyStr x)]).map Prod.fst ++
        rest.map Prod.fst).Nodup := by
      simp only [List.map_append, List.map_cons, List.map_nil,
        List.append_assoc, List.singleton_append]
      simpa using hnd
    simp only [List.map_cons, iniLoadGo,
      parseLine_opt done n cur k x hk hx hknd,
      ih done n (cur ++ [(k, pyStr x)])
        (fun r hr => hsimple r (by simp [hr])) hnd2]
    simp [optPairs, List.append_assoc]

theorem iniLoadGo_section (sec : Str) (opts : List (Str × Leaf)) (a : PAcc)
    (hsec : simpleName sec = true)
    (hopts : ∀ q ∈ opts, simpleName q.1 = true ∧ simpleLeaf q.2 = true)
    (hnd : (opts.map Prod.fst).Nodup)
    (hdup : sec ∉ (flushCur a).map Prod.fst) :
    iniLoadGo a (sectionLines sec opts) =
      .ok ⟨flushCur a, some sec, optPairs opts⟩ := by
  unfold sectionLines
  simp only [iniLoadGo]
  rw [parseLine_header a sec hsec hdup]
  simp only [iniLoadGo_append]
  rw [iniLoadGo_optLines opts (flushCur a) sec [] hopts (by simpa using hnd)]
  simp [iniLoadGo, parseLine_blank, optPairs]

theorem iniLoadGo_sections (M : List (Str × Value)) :
    ∀ a : PAcc, simpleMapping M = true →
      (∀ p ∈ M, p.1 ∉ (flushCur a).map Prod.fst) →
      ∃ afin, iniLoadGo a (dumpLines M ++ [[]]) = .ok afin ∧
        flushCur afin = flushCur a ++ parsedSections M := by
  induction M with
  | nil =>
    intro a _ _
    refine ⟨a, ?_, by simp [parsedSections]⟩
    simp only [dumpLines, List.nil_append, iniLoadGo, parseLine_blank]
  | cons p M' ih =>
    intro a hsm hdisj
    obtain ⟨sec, v⟩ := p
    obtain ⟨hsec, hsv, hM'⟩ := simpleMapping_head sec v M' hsm
    obtain ⟨opts, rfl, hndo, hops⟩ := simpleSectionV_dict v hsv
    have hsecdisj : sec ∉ (flushCur a).map Prod.fst :=
      hdisj (sec, Value.vDict opts) (by simp)
    have happ : dumpLines ((sec, Value.vDict opts) :: M') ++ [[]] =
        sectionLines sec opts ++ (dumpLines M' ++ [[]]) := by
      simp [dumpLines, dictOpts, List.append_assoc]
    rw [happ, iniLoadGo_append,
      iniLoadGo_section sec opts a hsec hops hndo hsecdisj]
    have hflush2 : flushCur ⟨flushCur a, some sec, optPairs opts⟩ =
        flushCur a ++ [(sec, optPairs opts)] := by simp [flushCur]
    have hsecM' : sec ∉ M'.map Prod.fst := by
      have := simpleMapping_nodup _ hsm
      simp only [List.map_cons, List.nodup_cons] at this
      exact this.1
    obtain ⟨afin, h1, h2⟩ := ih ⟨flushCur a, some sec, optPairs opts⟩ hM'
      (by
        intro p hp
        rw [hflush2]
        simp only [List.map_append, List.mem_append, List.map_cons,
          List.map_nil, List.mem_singleton, not_or]
        refine ⟨hdisj p (by simp [hp]), fun he => ?_⟩
        exact hsecM' (by rw [← he]; exact List.mem_map_of_mem _ hp))
    refine ⟨afin, h1, ?_⟩
    rw [h2, hflush2]
    simp [parsedSections, dictOpts, List.append_assoc]

theorem interpSections_parsed (M : List (Str × Value))
    (h : ∀ p ∈ M, ∀ q ∈ dictOpts p.2, simpleLeaf q.2 = true) :
    interpSections (parsedSections M) = some (parsedSections M) := by
  induction M with
  | nil => rfl
  | cons p M' ih =>
    obtain ⟨sec, v⟩ := p
    have ih2 := ih (fun r hr => h r (by simp [hr]))
    simp only [parsedSections, List.map_cons] at ih2 ⊢
    simp only [interpSections,
      interpOpts_optPairs (dictOpts v) (h (sec, v) (by simp)), ih2]

theorem dumpLines_no_newline (M : List (Str × Value))
    (h : simpleMapping M = true) : ∀ l ∈ dumpLines M, 10 ∉ l := by
  induction M with
  | nil => intro l hl; simp [dumpLines] at hl
  | cons p M' ih =>
    intro l hl
    obtain ⟨sec, v⟩ := p
    obtain ⟨hsec, hsv, hM'⟩ := simpleMapping_head sec v M' h
    obtain ⟨opts, rfl, hndo, hops⟩ := simpleSectionV_dict v hsv
    simp only [dumpLines, dictOpts, List.mem_append] at hl
    rcases hl with hl | hl
    · simp only [sectionLines, List.mem_cons, List.mem_append,
        List.mem_singleton, List.mem_map, List.not_mem_nil, or_false] at hl
      rcases hl with rfl | ⟨⟨q, hq, rfl⟩ | rfl⟩
      · intro hmem
        simp only [List.mem_cons, List.mem_append, List.mem_singleton,
          List.not_mem_nil, or_false] at hmem
        rcases hmem with h10 | h10 | h10
        · omega
        · exact simpleName_no_newline sec hsec h10
        · omega
      · obtain ⟨k, x⟩ := q
        rw [optLine_eq k x (hops (k, x) hq).1 (hops (k, x) hq).2]
        intro hmem
        simp only [List.mem_append, List.mem_cons, List.not_mem_nil,
          or_false] at hmem
        rcases hmem with h10 | h10 | h10 | h10 | h10
        · exact simpleName_no_newline k (hops (k, x) hq).1 h10
        · omega
        · omega
        · omega
        · exact simpleValStr_no_newline _
            (pyStr_simple x (hops (k, x) hq).2) h10
      · simp
    · exact ih hM' l hl

theorem iniDump_simple (M : List (Str × Value)) (h : simpleMapping M = true) :
    iniDump M = .ok (linesText (dumpLines M)) := by
  induction M with
  | nil => simp [iniDump, dumpLines, linesText]
  | cons p M' ih =>
    obtain ⟨sec, v⟩ := p
    obtain ⟨hsec, hsv, hM'⟩ := simpleMapping_head sec v M' h
    obtain ⟨opts, rfl, hndo, hops⟩ := simpleSectionV_dict v hsv
    simp only [iniDump]
    rw [if_neg (simpleName_ne_DEFAULT sec hsec)]
    rw [if_pos (by
      simp only [List.all_eq_true]
      intro kv hkv
      exact beforeSetOk_of_simple _ (pyStr_simple kv.2 (hops kv hkv).2))]
    rw [ih hM']
    simp [dumpLines, dictOpts, iniSectionText, linesText_append]

theorem parsedSections_normalize (M : List (Str × Value))
    (h : ∀ p ∈ M, ∃ opts, p.2 = Value.vDict opts) :
    (parsedSections M).map (fun p => (p.1,
      Value.vDict (p.2.map (fun q => (q.1, Leaf.lStr q.2))))) =
      normalizeLeaves M := by
  induction M with
  | nil => rfl
  | cons p M' ih =>
    obtain ⟨sec, v⟩ := p
    obtain ⟨opts, hv⟩ := h (sec, v) (by simp)
    simp only at hv
    subst hv
    have ih2 := ih (fun r hr => h r (by simp [hr]))
    simp only [parsedSections, normalizeLeaves, List.map_cons, dictOpts,
      optPairs, List.map_map, List.cons.injEq, Prod.mk.injEq, true_and] at ih2 ⊢
    exact ⟨by simp [Function.comp], ih2⟩

theorem iniLoad_dump (M : List (Str × Value)) (h : simpleMapping M = true) :
    iniLoad (linesText (dumpLines M)) = .ok (normalizeLeaves M) := by
  unfold iniLoad
  rw [splitNl_linesText _ (dumpLines_no_newline M h)]
  obtain ⟨afin, h1, h2⟩ := iniLoadGo_sections M ⟨[], none, []⟩ h
    (by intro p hp; simp [flushCur])
  have h2' : flushCur afin = parsedSections M := by
    rw [h2]; simp [flushCur]
  simp only [h1, h2']
  rw [interpSections_parsed M (by
    intro p hp q hq
    obtain ⟨hsec, hsv, _⟩ : simpleName p.1 = true ∧ simpleSectionV p.2 = true
        ∧ True := by
      simp only [simpleMapping, Bool.and_eq_true, List.all_eq_true,
        decide_eq_true_eq] at h
      have := h.2 p hp
      simp only [Bool.and_eq_true] at this
      exact ⟨this.1, this.2, trivial⟩
    obtain ⟨opts, hv, _, hops⟩ := simpleSectionV_dict p.2 hsv
    rw [hv] at hq
    simp only [dictOpts] at hq
    exact (hops q hq).2)]
  simp only [parsedSections_normalize M (by
    intro p hp
    have hsv : simpleSectionV p.2 = true := by
      simp only [simpleMapping, Bool.and_eq_true, List.all_eq_true,
        decide_eq_true_eq] at h
      have := h.2 p hp
      simp only [Bool.and_eq_true] at this
      exact this.2
    obtain ⟨opts, hv, _, _⟩ := simpleSectionV_dict p.2 hsv
    exact ⟨opts, hv⟩)]

/-- C9 (amended): the INI round-trip law `load(dump(M)) == M` with all
leaves normalized to their string form holds on the round-trippable
class: unique section names and option keys that are non-empty
lowercase identifier strings (`a-z0-9_-`), and string/float leaf
renderings that are percent-free printable ASCII without leading or
trailing spaces (int and bool leaves always qualify).  Outside this
class the law fails — in particular `optionxform` lowercases keys (the
counterexample) and configparser strips values and rejects bare `%`. -/
theorem c9_ini_roundtrip (M : List (Str × Value))
    (h : simpleMapping M = true) :
    iniDump M = .ok (linesText (dumpLines M)) ∧
    iniLoad (linesText (dumpLines M)) = .ok (normalizeLeaves M) :=
  ⟨iniDump_simple M h, iniLoad_dump M h⟩

theorem c9_ini_roundtrip_witness :
    iniDump [(sb "db", Value.vDict
        [(sb "host", Leaf.lStr (sb "localhost")), (sb "port", Leaf.lInt 5432),
         (sb "flag", Leaf.lBool true), (sb "scale", Leaf.lFloat (sb "1.5"))])] =
      .ok (linesText (dumpLines [(sb "db", Value.vDict
        [(sb "host", Leaf.lStr (sb "localhost")), (sb "port", Leaf.lInt 5432),
         (sb "flag", Leaf.lBool true),
         (sb "scale", Leaf.lFloat (sb "1.5"))])])) ∧
    iniLoad (linesText (dumpLines [(sb "db", Value.vDict
        [(sb "host", Leaf.lStr (sb "localhost")), (sb "port", Leaf.lInt 5432),
         (sb "flag", Leaf.lBool true),
         (sb "scale", Leaf.lFloat (sb "1.5"))])])) =
      .ok (normalizeLeaves [(sb "db", Value.vDict
        [(sb "host", Leaf.lStr (sb "localhost")), (sb "port", Leaf.lInt 5432),
         (sb "flag", Leaf.lBool true),
         (sb "scale", Leaf.lFloat (sb "1.5"))])]) :=
  c9_ini_roundtrip [(sb "db", Value.vDict
    [(sb "host", Leaf.lStr (sb "localhost")), (sb "port", Leaf.lInt 5432),
     (sb "flag", Leaf.lBool true), (sb "scale", Leaf.lFloat (sb "1.5"))])]
    (by decide)

/-- C9 counterexample: configparser's default `optionxform` lowercases
option keys when `set` stores them, so a mapping with an uppercase key
("Key") loads back with key "key" — not equal to the original mapping
even after normalizing its leaves to strings. -/
theorem c9_counterexample :
    iniDump [(sb "sec", Value.vDict [(sb "Key", Leaf.lStr (sb "v"))])] =
      .ok (linesText (dumpLines
        [(sb "sec", Value.vDict [(sb "Key", Leaf.lStr (sb "v"))])])) ∧
    iniLoad (linesText (dumpLines
        [(sb "sec", Value.vDict [(sb "Key", Leaf.lStr (sb "v"))])])) =
      .ok [(sb "sec", Value.vDict [(sb "key", Leaf.lStr (sb "v"))])] ∧
    ([(sb "sec", Value.vDict [(sb "key", Leaf.lStr (sb "v"))])] :
        List (Str × Value)) ≠
      normalizeLeaves
        [(sb "sec", Value.vDict [(sb "Key", Leaf.lStr (sb "v"))])] :=
  ⟨by decide, by decide, by decide⟩

theorem c6_set_password_rollback_witness :
    (setEncPasswordModel toyCrypto (fun _ => [0])
        ⟨some (sb "p1"),
          [(sb "a", [(sb "s", Value.vDict [(sb "k", Leaf.lStr (sb "v"))])]),
           (sb "b", [(sb "x", Value.leaf (Leaf.lInt 5))])], []⟩
        (sb "p2")).2 =
      some (sb "b", SaveErr.fmtError (nestedMsg (sb "x")
        (Value.leaf (Leaf.lInt 5)))) ∧
    (setEncPasswordModel toyCrypto (fun _ => [0])
        ⟨some (sb "p1"),
          [(sb "a", [(sb "s", Value.vDict [(sb "k", Leaf.lStr (sb "v"))])]),
           (sb "b", [(sb "x", Value.leaf (Leaf.lInt 5))])], []⟩
        (sb "p2")).1.password = some (sb "p1") ∧
    (setEncPasswordModel toyCrypto (fun _ => [0])
        ⟨some (sb "p1"),
          [(sb "a", [(sb "s", Value.vDict [(sb "k", Leaf.lStr (sb "v"))])]),
           (sb "b", [(sb "x", Value.leaf (Leaf.lInt 5))])], []⟩
        (sb "p2")).1.configs =
      [(sb "a", [(sb "s", Value.vDict [(sb "k", Leaf.lStr (sb "v"))])]),
       (sb "b", [(sb "x", Value.leaf (Leaf.lInt 5))])] :=
  ⟨by decide,
   (c6_set_password_rollback toyCrypto (fun _ => [0])
      ⟨some (sb "p1"),
        [(sb "a", [(sb "s", Value.vDict [(sb "k", Leaf.lStr (sb "v"))])]),
         (sb "b", [(sb "x", Value.leaf (Leaf.lInt 5))])], []⟩
      (sb "p2") (sb "b")
      (SaveErr.fmtError (nestedMsg (sb "x") (Value.leaf (Leaf.lInt 5))))
      (by decide)).1,
   (c6_set_password_rollback toyCrypto (fun _ => [0])
      ⟨some (sb "p1"),
        [(sb "a", [(sb "s", Value.vDict [(sb "k", Leaf.lStr (sb "v"))])]),
         (sb "b", [(sb "x", Value.leaf (Leaf.lInt 5))])], []⟩
      (sb "p2") (sb "b")
      (SaveErr.fmtError (nestedMsg (sb "x") (Value.leaf (Leaf.lInt 5))))
      (by decide)).2.1⟩

end VaultConfig
